import Mathlib

/-!
Verification development for the duplicate-file organizer `al.py`.

The program groups the files of a directory by size, then progressively
refines ambiguous groups by a digest of the first 1024 bytes and finally by a
digest of the whole contents; the first member of every remaining group is
classified by filename extension and the rest land in the reserved
"duplicate-files" bucket.

The embedding below is a direct translation of the Python source:
* Python `dict`/`defaultdict(list)` tables become association lists
  (`Table`) whose operations mirror insertion-order dictionary semantics:
  appending to an existing key extends its list in place, a fresh key is
  added at the end.
* File contents, readability of files, and the SHA-256 function are
  abstracted into an environment `Env`; `get_hash` applies `Env.sha256`
  to the bytes the Python code would read.
* Exceptions become `Except String`; the Python messages are kept verbatim.
* The recursion of `find_duplicate_files` is kept as a recursion on the
  `iteration` counter, proved terminating.
-/

namespace Al

/-- `byte_chunk = 1024`, the bound on the bytes read for a partial digest. -/
def byte_chunk : Nat := 1024

/-- The ambient file system seen by the algorithm: the byte contents of each
file, whether a file can be opened and read, and the SHA-256 digest function
(returning a hex string), kept abstract. -/
structure Env where
  content : String → List Nat
  readable : String → Bool
  sha256 : List Nat → String

/-- Keys of the grouping tables: byte sizes at level 0 (Python `int`),
hex digests (Python `str`) at the refinement levels. -/
inductive Key where
  | size (n : Nat)
  | digest (d : String)
deriving DecidableEq

/-- An insertion-ordered mapping from keys to lists of file handles,
modelling a Python `defaultdict(list)`. -/
abbrev Table (K : Type) := List (K × List String)

/-- Value of the first entry with key `k` (a Python dict holds each key once). -/
def tlookup {K : Type} [DecidableEq K] : Table K → K → List String
  | [], _ => []
  | (k', fs) :: t, k => if k' = k then fs else tlookup t k

/-- `table[k].append(f)` on a `defaultdict(list)`: append `f` to the list of
the first entry keyed `k`, or add a new entry `(k, [f])` at the end. -/
def tbl_append {K : Type} [DecidableEq K] : Table K → K → String → Table K
  | [], k, f => [(k, [f])]
  | (k', fs) :: t, k, f =>
      if k' = k then (k', fs ++ [f]) :: t else (k', fs) :: tbl_append t k f

/-- `table[k].extend(files)` on a `defaultdict(list)`: note that the entry is
created even when `files` is empty, as the Python subscript does. -/
def tbl_extend {K : Type} [DecidableEq K] : Table K → K → List String → Table K
  | [], k, fs => [(k, fs)]
  | (k', fs') :: t, k, fs =>
      if k' = k then (k', fs' ++ fs) :: t else (k', fs') :: tbl_extend t k fs

/-- Total number of file handles stored in a table. -/
def tcount {K : Type} (t : Table K) : Nat :=
  (t.map (fun e => e.2.length)).sum

/-- All file handles stored in a table, in table order. -/
def filesOf {K : Type} (t : Table K) : List String :=
  t.flatMap (fun e => e.2)

/-- Index of the last occurrence of `c` in `cs`, `-1` when absent
(Python `str.rfind`). -/
def rfind (cs : List Char) (c : Char) : Int :=
  (cs.foldl (fun (st : Int × Int) ch =>
    (st.1 + 1, if ch = c then st.1 else st.2)) (0, -1)).2

/-- CPython `os.path.splitext` for POSIX paths: split at the last dot,
except that leading dots of the basename never start an extension
(`".bashrc"` has no extension). -/
def splitext (p : String) : String × String :=
  let cs := p.toList
  let sepIndex := rfind cs '/'
  let dotIndex := rfind cs '.'
  if sepIndex < dotIndex then
    if (List.range cs.length).any (fun i =>
        decide (sepIndex < (i : Int)) && decide ((i : Int) < dotIndex) &&
        decide (cs.getD i '.' ≠ '.')) then
      (String.mk (cs.take dotIndex.toNat), String.mk (cs.drop dotIndex.toNat))
    else (p, "")
  else (p, "")

/-- The bucket label computed in `add_unique_file_to_table`: the extension
without its dot suffixed with `"-files"`, or `"no-extension-files"` when
`splitext` yields an empty extension. -/
def file_label (file : String) : String :=
  let ext := (splitext file).2
  if ext = "" then "no-extension-files"
  else String.mk (ext.toList.drop 1) ++ "-files"

/-- `add_unique_file_to_table`: append `file` to the bucket named after its
extension. -/
def add_unique_file_to_table (file : String) (dest : Table String) : Table String :=
  tbl_append dest (file_label file) file

/-- `get_hash`: digest of the first 1024 bytes at iteration 0, of the whole
contents at iteration 1, an error otherwise. -/
def get_hash (e : Env) (file : String) (iteration : Nat) : Except String String :=
  if iteration = 0 then .ok (e.sha256 ((e.content file).take byte_chunk))
  else if iteration = 1 then .ok (e.sha256 (e.content file))
  else .error "Error encountered in get_hash()"

/-- `rehash_and_add_to_table`: hash every file of the list and append it to
the table under its digest; an unopenable or unreadable file raises
`"Unable to read current file"`. -/
def rehash_and_add_to_table (e : Env) :
    List String → Table Key → Nat → Except String (Table Key)
  | [], dest, _ => .ok dest
  | f :: rest, dest, it =>
    if e.readable f then
      match get_hash e f it with
      | .error msg => .error msg
      | .ok h => rehash_and_add_to_table e rest (tbl_append dest (Key.digest h) f) it
    else .error "Unable to read current file"

/-- The rehash loop of `find_duplicate_files`: rehash the files of every
group of `groups` into one table (the cleared `source_table`). -/
def rehash_all (e : Env) :
    List (Key × List String) → Table Key → Nat → Except String (Table Key)
  | [], acc, _ => .ok acc
  | (_, files) :: rest, acc, it =>
    match rehash_and_add_to_table e files acc it with
    | .error msg => .error msg
    | .ok acc' => rehash_all e rest acc' it

/-- One entry of the classification loop of `find_duplicate_files`: a
single-member group is classified as unique, any other group is pooled into
`potentially_duplicate_files`. -/
def pass_step (acc : Table String × Table Key) (entry : Key × List String) :
    Table String × Table Key :=
  match entry.2 with
  | [f] => (add_unique_file_to_table f acc.1, acc.2)
  | files => (acc.1, tbl_extend acc.2 entry.1 files)

/-- The classification loop of `find_duplicate_files` over the whole source
table: returns the updated destination table and the pooled
`potentially_duplicate_files`. -/
def pass_split (source : Table Key) (dest : Table String) :
    Table String × Table Key :=
  List.foldl pass_step (dest, []) source

/-- The `iteration == 2` branch of `find_duplicate_files`: the first member
of every group is classified by extension, the remaining members go to
`"duplicate-files"`.  An empty group would make the Python code fail with an
`IndexError` on `list_of_files[0]`. -/
def classify_final : Table String → List (Key × List String) → Except String (Table String)
  | dest, [] => .ok dest
  | _, (_, []) :: _ => .error "IndexError: list index out of range"
  | dest, (_, f :: others) :: rest =>
      classify_final
        (others.foldl (fun d x => tbl_append d "duplicate-files" x)
          (add_unique_file_to_table f dest))
        rest

/-- An empty source table produces no potential duplicates
(support lemma for termination). -/
theorem pass_split_nil (dest : Table String) : pass_split [] dest = (dest, []) := rfl

/-- For an iteration count with no hashing branch (`2 ≤ it`), a rehash pass
can only succeed by doing nothing: every readable file makes `get_hash`
fail and every unreadable file fails at the open. -/
theorem rehash_ok_ge2 (e : Env) (files : List String) (dest t : Table Key) (it : Nat)
    (hit : 2 ≤ it) (h : rehash_and_add_to_table e files dest it = .ok t) : t = dest := by
  cases files with
  | nil =>
    have h' : dest = t := by simpa [rehash_and_add_to_table] using h
    exact h'.symm
  | cons f rest =>
    simp only [rehash_and_add_to_table] at h
    by_cases hr : e.readable f
    · have hg : get_hash e f it = .error "Error encountered in get_hash()" := by
        have h0 : ¬ it = 0 := by omega
        have h1 : ¬ it = 1 := by omega
        simp [get_hash, h0, h1]
      rw [hg] at h
      simp [hr] at h
    · simp [hr] at h

/-- With `2 ≤ it`, a whole rehash loop can only succeed on groups whose file
lists are all empty, leaving the accumulated table unchanged. -/
theorem rehash_all_ok_ge2 (e : Env) (groups : List (Key × List String))
    (acc t : Table Key) (it : Nat) (hit : 2 ≤ it)
    (h : rehash_all e groups acc it = .ok t) : t = acc := by
  induction groups generalizing acc with
  | nil =>
    have h' : acc = t := by simpa [rehash_all] using h
    exact h'.symm
  | cons g rest ih =>
    simp only [rehash_all] at h
    cases hg : rehash_and_add_to_table e g.2 acc it with
    | error msg => rw [hg] at h; simp at h
    | ok acc' =>
      rw [hg] at h
      simp only at h
      have h1 := ih acc' h
      have h2 := rehash_ok_ge2 e g.2 acc acc' it hit hg
      rw [h1, h2]

/-- A nonempty pooled table can only arise from a nonempty source table
(support lemma for termination). -/
theorem pass_split_src_ne_nil (source : Table Key) (dest : Table String)
    (h : (pass_split source dest).2 ≠ []) : source ≠ [] := by
  intro hs
  rw [hs, pass_split_nil] at h
  exact h rfl

/-- `find_duplicate_files`, recursing on the `iteration` counter exactly as
the Python function does: at iteration 2 every remaining group is terminal;
otherwise singleton groups are classified, the rest are pooled, rehashed at
the current level, and the function re-invokes itself at `iteration + 1`. -/
def find_duplicate_files (e : Env) (source : Table Key) (dest : Table String)
    (iteration : Nat) : Except String (Table String) :=
  if iteration = 2 then
    classify_final dest source
  else
    if hpot : (pass_split source dest).2 = [] then
      .ok (pass_split source dest).1
    else
      match hre : rehash_all e (pass_split source dest).2 [] iteration with
      | .error msg => .error msg
      | .ok next_source =>
          find_duplicate_files e next_source (pass_split source dest).1 (iteration + 1)
termination_by (3 - iteration) * 2 + (if source = [] then 0 else 1)
decreasing_by
  have hsrc : source ≠ [] := pass_split_src_ne_nil source dest hpot
  rw [if_neg hsrc]
  by_cases h3 : iteration < 3
  · have hle : (if next_source = [] then 0 else 1) ≤ 1 := by
      split <;> omega
    omega
  · have hnil : next_source = [] :=
      rehash_all_ok_ge2 e (pass_split source dest).2 [] next_source iteration
        (by omega) hre
    rw [if_pos hnil]
    omega

/-! ### Instrumented twins

To reason about which hash computations a run performs, each hashing
function gets a twin that additionally returns the list of `get_hash`
invocations `(file, iteration)` made, in order, up to the point where the
run aborts.  The first components agree with the plain functions. -/

/-- Twin of `rehash_and_add_to_table` recording every `get_hash` invocation. -/
def rehash_and_add_to_table_tr (e : Env) :
    List String → Table Key → Nat → Except String (Table Key) × List (String × Nat)
  | [], dest, _ => (.ok dest, [])
  | f :: rest, dest, it =>
    if e.readable f then
      match get_hash e f it with
      | .error msg => (.error msg, [(f, it)])
      | .ok h =>
          let r := rehash_and_add_to_table_tr e rest (tbl_append dest (Key.digest h) f) it
          (r.1, (f, it) :: r.2)
    else (.error "Unable to read current file", [])

/-- Twin of `rehash_all` recording every `get_hash` invocation. -/
def rehash_all_tr (e : Env) :
    List (Key × List String) → Table Key → Nat →
      Except String (Table Key) × List (String × Nat)
  | [], acc, _ => (.ok acc, [])
  | (_, files) :: rest, acc, it =>
    match rehash_and_add_to_table_tr e files acc it with
    | (.error msg, tr) => (.error msg, tr)
    | (.ok acc', tr) =>
        let r := rehash_all_tr e rest acc' it
        (r.1, tr ++ r.2)

/-- The instrumented rehash pass computes the same result as the plain one. -/
theorem rehash_tr_fst (e : Env) (files : List String) (dest : Table Key) (it : Nat) :
    (rehash_and_add_to_table_tr e files dest it).1 =
      rehash_and_add_to_table e files dest it := by
  induction files generalizing dest with
  | nil => rfl
  | cons f rest ih =>
    simp only [rehash_and_add_to_table_tr, rehash_and_add_to_table]
    by_cases hr : e.readable f
    · simp only [hr, if_true]
      cases hg : get_hash e f it with
      | error msg => rfl
      | ok h => exact ih (tbl_append dest (Key.digest h) f)
    · simp [hr]

/-- The instrumented rehash loop computes the same result as the plain one. -/
theorem rehash_all_tr_fst (e : Env) (groups : List (Key × List String))
    (acc : Table Key) (it : Nat) :
    (rehash_all_tr e groups acc it).1 = rehash_all e groups acc it := by
  induction groups generalizing acc with
  | nil => rfl
  | cons g rest ih =>
    obtain ⟨k, files⟩ := g
    simp only [rehash_all_tr, rehash_all]
    rw [← rehash_tr_fst e files acc it]
    cases hg : rehash_and_add_to_table_tr e files acc it with
    | mk r tr =>
      cases r with
      | error msg => rfl
      | ok acc' => exact ih acc'

/-- Twin of `find_duplicate_files` recording every `get_hash` invocation of
the run. -/
def find_duplicate_files_tr (e : Env) (source : Table Key) (dest : Table String)
    (iteration : Nat) : Except String (Table String) × List (String × Nat) :=
  if iteration = 2 then
    (classify_final dest source, [])
  else
    if hpot : (pass_split source dest).2 = [] then
      (.ok (pass_split source dest).1, [])
    else
      match hre : rehash_all_tr e (pass_split source dest).2 [] iteration with
      | (.error msg, tr) => (.error msg, tr)
      | (.ok next_source, tr) =>
          let r := find_duplicate_files_tr e next_source (pass_split source dest).1
            (iteration + 1)
          (r.1, tr ++ r.2)
termination_by (3 - iteration) * 2 + (if source = [] then 0 else 1)
decreasing_by
  have hsrc : source ≠ [] := pass_split_src_ne_nil source dest hpot
  rw [if_neg hsrc]
  by_cases h3 : iteration < 3
  · have hle : (if next_source = [] then 0 else 1) ≤ 1 := by
      split <;> omega
    omega
  · have hok : rehash_all e (pass_split source dest).2 [] iteration = .ok next_source := by
      rw [← rehash_all_tr_fst, hre]
    have hnil : next_source = [] :=
      rehash_all_ok_ge2 e (pass_split source dest).2 [] next_source iteration
        (by omega) hok
    rw [if_pos hnil]
    omega

/-! ### Unfolding equations for the refinement recursion -/

/-- At iteration 2 the function only classifies: every remaining group is
terminal, no rehashing happens. -/
theorem find_dup_at2 (e : Env) (src : Table Key) (dest : Table String) :
    find_duplicate_files e src dest 2 = classify_final dest src := by
  rw [find_duplicate_files]
  simp

/-- Unfolding of the run entered at iteration 1: one refinement pass with
the full digest, then the terminal classification. -/
theorem find_dup_at1 (e : Env) (s1 : Table Key) (dest : Table String) :
    find_duplicate_files e s1 dest 1 =
      (if (pass_split s1 dest).2 = [] then .ok (pass_split s1 dest).1
       else
         match rehash_all e (pass_split s1 dest).2 [] 1 with
         | .error msg => .error msg
         | .ok s2 => classify_final (pass_split s1 dest).1 s2) := by
  rw [find_duplicate_files]
  by_cases h : (pass_split s1 dest).2 = []
  · simp [h]
  · simp only [if_neg h, dif_neg h]
    norm_num
    cases hrh : rehash_all e (pass_split s1 dest).2 [] 1 with
    | error msg => simp
    | ok s2 => simp [find_dup_at2]

/-- Unfolding of a whole run (entered at iteration 0): at most two
refinement passes, partial digest then full digest, then the terminal
classification. -/
theorem find_dup_unfold0 (e : Env) (src : Table Key) (dest : Table String) :
    find_duplicate_files e src dest 0 =
      (if (pass_split src dest).2 = [] then .ok (pass_split src dest).1
       else
         match rehash_all e (pass_split src dest).2 [] 0 with
         | .error msg => .error msg
         | .ok s1 =>
           if (pass_split s1 (pass_split src dest).1).2 = [] then
             .ok (pass_split s1 (pass_split src dest).1).1
           else
             match rehash_all e (pass_split s1 (pass_split src dest).1).2 [] 1 with
             | .error msg => .error msg
             | .ok s2 => classify_final (pass_split s1 (pass_split src dest).1).1 s2) := by
  rw [find_duplicate_files]
  by_cases h : (pass_split src dest).2 = []
  · simp [h]
  · simp only [if_neg h, dif_neg h]
    norm_num
    cases hrh : rehash_all e (pass_split src dest).2 [] 0 with
    | error msg => simp
    | ok s1 => simp [find_dup_at1]

/-! ### Basic facts about the table operations -/

@[simp]
theorem filesOf_nil {K : Type} : filesOf ([] : Table K) = [] := rfl

@[simp]
theorem filesOf_cons {K : Type} (e : K × List String) (t : Table K) :
    filesOf (e :: t) = e.2 ++ filesOf t := by
  simp [filesOf]

@[simp]
theorem tcount_nil {K : Type} : tcount ([] : Table K) = 0 := rfl

@[simp]
theorem tcount_cons {K : Type} (e : K × List String) (t : Table K) :
    tcount (e :: t) = e.2.length + tcount t := by
  simp [tcount]

theorem tlookup_tbl_append_self {K : Type} [DecidableEq K] (t : Table K) (k : K) (f : String) :
    tlookup (tbl_append t k f) k = tlookup t k ++ [f] := by
  induction t with
  | nil => simp [tbl_append, tlookup]
  | cons e t ih =>
    obtain ⟨k', fs⟩ := e
    by_cases h : k' = k
    · simp [tbl_append, tlookup, h]
    · simp [tbl_append, tlookup, h, ih]

theorem tlookup_tbl_append_other {K : Type} [DecidableEq K] (t : Table K) (k l : K)
    (f : String) (h : l ≠ k) : tlookup (tbl_append t k f) l = tlookup t l := by
  have h' : ¬ k = l := fun hh => h hh.symm
  induction t with
  | nil => simp [tbl_append, tlookup, h']
  | cons e t ih =>
    obtain ⟨k', fs⟩ := e
    by_cases hk : k' = k
    · simp [tbl_append, tlookup, hk, h']
    · by_cases hl : k' = l
      · simp [tbl_append, tlookup, hk, hl, h]
      · simp [tbl_append, tlookup, hk, hl, ih]

theorem mem_tlookup_tbl_append {K : Type} [DecidableEq K] {t : Table K} {l : K} {x : String}
    (k : K) (f : String) (h : x ∈ tlookup t l) : x ∈ tlookup (tbl_append t k f) l := by
  by_cases hk : l = k
  · subst hk
    rw [tlookup_tbl_append_self]
    exact List.mem_append_left _ h
  · rw [tlookup_tbl_append_other t k l f hk]
    exact h

theorem self_mem_tlookup_tbl_append {K : Type} [DecidableEq K] (t : Table K) (k : K)
    (f : String) : f ∈ tlookup (tbl_append t k f) k := by
  rw [tlookup_tbl_append_self]
  exact List.mem_append_right _ (List.mem_singleton.mpr rfl)

theorem mem_filesOf_tbl_append {K : Type} [DecidableEq K] {t : Table K} {k : K}
    {f x : String} (h : x ∈ filesOf (tbl_append t k f)) : x ∈ filesOf t ∨ x = f := by
  induction t with
  | nil =>
    simp [tbl_append] at h
    exact Or.inr h
  | cons e t ih =>
    obtain ⟨k', fs⟩ := e
    by_cases hk : k' = k
    · simp only [tbl_append, if_pos hk, filesOf_cons, List.mem_append,
        List.mem_singleton] at h ⊢
      tauto
    · simp only [tbl_append, if_neg hk, filesOf_cons, List.mem_append] at h ⊢
      rcases h with h | h
      · exact Or.inl (Or.inl h)
      · rcases ih h with h' | h'
        · exact Or.inl (Or.inr h')
        · exact Or.inr h'

theorem filesOf_mem_tbl_append {K : Type} [DecidableEq K] {t : Table K} {x : String}
    (k : K) (f : String) (h : x ∈ filesOf t) : x ∈ filesOf (tbl_append t k f) := by
  induction t with
  | nil => simp at h
  | cons e t ih =>
    obtain ⟨k', fs⟩ := e
    by_cases hk : k' = k
    · simp only [filesOf_cons, List.mem_append] at h
      simp only [tbl_append, if_pos hk, filesOf_cons, List.mem_append]
      tauto
    · simp only [filesOf_cons, List.mem_append] at h
      simp only [tbl_append, if_neg hk, filesOf_cons, List.mem_append]
      rcases h with h | h
      · exact Or.inl h
      · exact Or.inr (ih h)

theorem self_mem_filesOf_tbl_append {K : Type} [DecidableEq K] (t : Table K) (k : K)
    (f : String) : f ∈ filesOf (tbl_append t k f) := by
  induction t with
  | nil => simp [tbl_append]
  | cons e t ih =>
    obtain ⟨k', fs⟩ := e
    by_cases hk : k' = k
    · simp [tbl_append, if_pos hk]
    · simp only [tbl_append, if_neg hk, filesOf_cons, List.mem_append]
      exact Or.inr ih

theorem tcount_tbl_append {K : Type} [DecidableEq K] (t : Table K) (k : K) (f : String) :
    tcount (tbl_append t k f) = tcount t + 1 := by
  induction t with
  | nil => simp [tbl_append]
  | cons e t ih =>
    obtain ⟨k', fs⟩ := e
    by_cases hk : k' = k
    · simp [tbl_append, if_pos hk]
      omega
    · simp [tbl_append, if_neg hk, ih]
      omega

theorem tcount_tbl_extend {K : Type} [DecidableEq K] (t : Table K) (k : K)
    (fs : List String) : tcount (tbl_extend t k fs) = tcount t + fs.length := by
  induction t with
  | nil => simp [tbl_extend]
  | cons e t ih =>
    obtain ⟨k', fs'⟩ := e
    by_cases hk : k' = k
    · simp [tbl_extend, if_pos hk]
      omega
    · simp [tbl_extend, if_neg hk, ih]
      omega

theorem mem_filesOf_tbl_extend {K : Type} [DecidableEq K] {t : Table K} {k : K}
    {fs : List String} {x : String} (h : x ∈ filesOf (tbl_extend t k fs)) :
    x ∈ filesOf t ∨ x ∈ fs := by
  induction t with
  | nil =>
    simp [tbl_extend] at h
    exact Or.inr h
  | cons e t ih =>
    obtain ⟨k', fs'⟩ := e
    by_cases hk : k' = k
    · simp only [tbl_extend, if_pos hk, filesOf_cons, List.mem_append] at h ⊢
      tauto
    · simp only [tbl_extend, if_neg hk, filesOf_cons, List.mem_append] at h ⊢
      rcases h with h | h
      · exact Or.inl (Or.inl h)
      · rcases ih h with h' | h'
        · exact Or.inl (Or.inr h')
        · exact Or.inr h'

theorem mem_tbl_extend_of_mem {K : Type} [DecidableEq K] (t : Table K) (k : K)
    {fs : List String} {x : String} (h : x ∈ fs) : x ∈ filesOf (tbl_extend t k fs) := by
  induction t with
  | nil => simp [tbl_extend, h]
  | cons e t ih =>
    obtain ⟨k', fs'⟩ := e
    by_cases hk : k' = k
    · simp only [tbl_extend, if_pos hk, filesOf_cons, List.mem_append]
      exact Or.inl (Or.inr h)
    · simp only [tbl_extend, if_neg hk, filesOf_cons, List.mem_append]
      exact Or.inr ih

theorem mem_filesOf_tbl_extend_left {K : Type} [DecidableEq K] (k : K)
    {t : Table K} {fs : List String} {x : String} (h : x ∈ filesOf t) :
    x ∈ filesOf (tbl_extend t k fs) := by
  induction t with
  | nil => simp at h
  | cons e t ih =>
    obtain ⟨k', fs'⟩ := e
    simp only [filesOf_cons, List.mem_append] at h
    by_cases hk : k' = k
    · simp only [tbl_extend, if_pos hk, filesOf_cons, List.mem_append]
      tauto
    · simp only [tbl_extend, if_neg hk, filesOf_cons, List.mem_append]
      rcases h with h | h
      · exact Or.inl h
      · exact Or.inr (ih h)

theorem tbl_extend_ne_nil {K : Type} [DecidableEq K] (t : Table K) (k : K)
    (fs : List String) : tbl_extend t k fs ≠ [] := by
  cases t with
  | nil => simp [tbl_extend]
  | cons e t =>
    obtain ⟨k', fs'⟩ := e
    by_cases hk : k' = k <;> simp [tbl_extend, hk]

theorem tlookup_entry_mem {K : Type} [DecidableEq K] {t : Table K} {k : K}
    (h : tlookup t k ≠ []) : (k, tlookup t k) ∈ t := by
  induction t with
  | nil => simp [tlookup] at h
  | cons e t ih =>
    obtain ⟨k', fs⟩ := e
    by_cases hk : k' = k
    · subst hk
      simp [tlookup]
    · simp only [tlookup, if_neg hk] at h ⊢
      exact List.mem_cons_of_mem _ (ih h)

/-! ### Facts about the classification pass -/

theorem pass_step_single (acc : Table String × Table Key) (k : Key) (f : String) :
    pass_step acc (k, [f]) = (add_unique_file_to_table f acc.1, acc.2) := rfl

theorem pass_step_empty (acc : Table String × Table Key) (k : Key) :
    pass_step acc (k, []) = (acc.1, tbl_extend acc.2 k []) := rfl

theorem pass_step_multi (acc : Table String × Table Key) (k : Key) (f g : String)
    (rest : List String) :
    pass_step acc (k, f :: g :: rest) = (acc.1, tbl_extend acc.2 k (f :: g :: rest)) := rfl

/-- Case analysis on one entry of the classification loop. -/
theorem pass_step_cases (acc : Table String × Table Key) (entry : Key × List String) :
    (∃ f, entry.2 = [f] ∧ pass_step acc entry = (add_unique_file_to_table f acc.1, acc.2)) ∨
    (entry.2.length ≠ 1 ∧ pass_step acc entry = (acc.1, tbl_extend acc.2 entry.1 entry.2)) := by
  obtain ⟨k, fs⟩ := entry
  match fs with
  | [] => exact Or.inr ⟨by simp, rfl⟩
  | [f] => exact Or.inl ⟨f, rfl, rfl⟩
  | f :: g :: rest => exact Or.inr ⟨by simp, rfl⟩

/-- The destination component of the classification loop only grows:
buckets keep their members. -/
theorem pass_dest_mono (src : Table Key) (acc : Table String × Table Key)
    {l : String} {x : String} (h : x ∈ tlookup acc.1 l) :
    x ∈ tlookup (List.foldl pass_step acc src).1 l := by
  induction src generalizing acc with
  | nil => exact h
  | cons entry rest ih =>
    rw [List.foldl_cons]
    rcases pass_step_cases acc entry with ⟨f, _, heq⟩ | ⟨_, heq⟩
    · rw [heq]
      exact ih _ (mem_tlookup_tbl_append _ _ h)
    · rw [heq]
      exact ih _ h

/-- A file in the pooled table of a pass came from a source group of size
different from one. -/
theorem pass_pot_sub (src : Table Key) (acc : Table String × Table Key)
    {x : String} (h : x ∈ filesOf (List.foldl pass_step acc src).2) :
    x ∈ filesOf acc.2 ∨ ∃ p ∈ src, x ∈ p.2 ∧ p.2.length ≠ 1 := by
  induction src generalizing acc with
  | nil => exact Or.inl h
  | cons entry rest ih =>
    rw [List.foldl_cons] at h
    rcases pass_step_cases acc entry with ⟨f, _, heq⟩ | ⟨hlen, heq⟩
    · rw [heq] at h
      rcases ih _ h with h' | ⟨p, hp, hx, hl⟩
      · exact Or.inl h'
      · exact Or.inr ⟨p, List.mem_cons_of_mem _ hp, hx, hl⟩
    · rw [heq] at h
      rcases ih _ h with h' | ⟨p, hp, hx, hl⟩
      · rcases mem_filesOf_tbl_extend h' with h'' | h''
        · exact Or.inl h''
        · exact Or.inr ⟨entry, List.mem_cons_self _ _, h'', hlen⟩
      · exact Or.inr ⟨p, List.mem_cons_of_mem _ hp, hx, hl⟩

/-- The pooled table of a pass only grows along the loop. -/
theorem pass_pot_mono (src : Table Key) (acc : Table String × Table Key)
    {x : String} (h : x ∈ filesOf acc.2) :
    x ∈ filesOf (List.foldl pass_step acc src).2 := by
  induction src generalizing acc with
  | nil => exact h
  | cons entry rest ih =>
    rw [List.foldl_cons]
    rcases pass_step_cases acc entry with ⟨f, _, heq⟩ | ⟨_, heq⟩
    · rw [heq]
      exact ih _ h
    · rw [heq]
      exact ih _ (mem_filesOf_tbl_extend_left _ h)

/-- Every member of an ambiguous source group (size different from one) is
pooled by the pass. -/
theorem pass_pot_of_mem {src : Table Key} {p : Key × List String}
    (acc : Table String × Table Key) (hp : p ∈ src) {x : String} (hx : x ∈ p.2)
    (hlen : p.2.length ≠ 1) : x ∈ filesOf (List.foldl pass_step acc src).2 := by
  induction src generalizing acc with
  | nil => cases hp
  | cons entry rest ih =>
    rw [List.foldl_cons]
    rcases List.mem_cons.mp hp with hh | hh
    · subst hh
      rcases pass_step_cases acc p with ⟨f, hf, _⟩ | ⟨_, heq⟩
      · rw [hf] at hlen
        simp at hlen
      · rw [heq]
        exact pass_pot_mono rest _ (mem_tbl_extend_of_mem _ _ hx)
    · rcases pass_step_cases acc entry with ⟨f, _, heq⟩ | ⟨_, heq⟩ <;> rw [heq] <;>
        exact ih _ hh

/-- A singleton source group `[f]` gets `f` classified into its extension
bucket by the pass. -/
theorem pass_dest_of_singleton {src : Table Key} {k : Key} {f : String}
    (acc : Table String × Table Key) (hp : (k, [f]) ∈ src) :
    f ∈ tlookup (List.foldl pass_step acc src).1 (file_label f) := by
  induction src generalizing acc with
  | nil => cases hp
  | cons entry rest ih =>
    rw [List.foldl_cons]
    rcases List.mem_cons.mp hp with hh | hh
    · rw [← hh, pass_step_single]
      exact pass_dest_mono rest _
        (self_mem_tlookup_tbl_append acc.1 (file_label f) f)
    · rcases pass_step_cases acc entry with ⟨g, _, heq⟩ | ⟨_, heq⟩ <;> rw [heq] <;>
        exact ih _ hh

/-- The classification pass conserves handles: destination growth plus
pooled handles account exactly for the source handles. -/
theorem pass_count (src : Table Key) (acc : Table String × Table Key) :
    tcount (List.foldl pass_step acc src).1 + tcount (List.foldl pass_step acc src).2 =
      tcount acc.1 + tcount acc.2 + tcount src := by
  induction src generalizing acc with
  | nil => simp
  | cons entry rest ih =>
    rw [List.foldl_cons]
    rcases pass_step_cases acc entry with ⟨f, hf, heq⟩ | ⟨_, heq⟩
    · rw [heq, ih]
      simp [add_unique_file_to_table, tcount_tbl_append, hf]
      omega
    · rw [heq, ih]
      simp [tcount_tbl_extend]
      omega

/-- Once an ambiguous group exists in the source, the pooled table of the
pass is nonempty. -/
theorem pass_pot_ne_nil_aux (src : Table Key) (acc : Table String × Table Key)
    (h : (List.foldl pass_step acc src).2 = []) : acc.2 = [] := by
  induction src generalizing acc with
  | nil => exact h
  | cons entry rest ih =>
    rw [List.foldl_cons] at h
    rcases pass_step_cases acc entry with ⟨f, _, heq⟩ | ⟨_, heq⟩
    · rw [heq] at h
      exact ih (add_unique_file_to_table f acc.1, acc.2) h
    · rw [heq] at h
      exact absurd (ih _ h) (tbl_extend_ne_nil _ _ _)

theorem pass_pot_ne_nil_foldl {src : Table Key} {p : Key × List String}
    (acc : Table String × Table Key) (hp : p ∈ src) (hlen : p.2.length ≠ 1) :
    (List.foldl pass_step acc src).2 ≠ [] := by
  induction src generalizing acc with
  | nil => cases hp
  | cons entry rest ih =>
    rw [List.foldl_cons]
    rcases List.mem_cons.mp hp with hh | hh
    · subst hh
      rcases pass_step_cases acc p with ⟨f, hf, _⟩ | ⟨_, heq⟩
      · rw [hf] at hlen
        simp at hlen
      · rw [heq]
        intro hnil
        exact tbl_extend_ne_nil _ _ _ (pass_pot_ne_nil_aux rest _ hnil)
    · rcases pass_step_cases acc entry with ⟨f, _, heq⟩ | ⟨_, heq⟩ <;> rw [heq] <;>
        exact ih _ hh

theorem pass_pot_ne_nil {src : Table Key} {p : Key × List String}
    (dest : Table String) (hp : p ∈ src) (hlen : p.2.length ≠ 1) :
    (pass_split src dest).2 ≠ [] :=
  pass_pot_ne_nil_foldl (dest, []) hp hlen

/-! ### Facts about the rehash pass -/

theorem rehash_count {e : Env} {files : List String} {dest t : Table Key} {it : Nat}
    (h : rehash_and_add_to_table e files dest it = .ok t) :
    tcount t = tcount dest + files.length := by
  induction files generalizing dest with
  | nil =>
    have h' : dest = t := by simpa [rehash_and_add_to_table] using h
    simp [← h']
  | cons f rest ih =>
    simp only [rehash_and_add_to_table] at h
    by_cases hr : e.readable f
    · simp only [hr, if_true] at h
      cases hg : get_hash e f it with
      | error msg => rw [hg] at h; simp at h
      | ok d =>
        rw [hg] at h
        simp only at h
        have := ih h
        rw [this, tcount_tbl_append]
        simp
        omega
    · simp [hr] at h

theorem rehash_all_count {e : Env} {groups : List (Key × List String)}
    {acc t : Table Key} {it : Nat} (h : rehash_all e groups acc it = .ok t) :
    tcount t = tcount acc + tcount groups := by
  induction groups generalizing acc with
  | nil =>
    have h' : acc = t := by simpa [rehash_all] using h
    simp [← h']
  | cons g rest ih =>
    obtain ⟨k, files⟩ := g
    simp only [rehash_all] at h
    cases hg : rehash_and_add_to_table e files acc it with
    | error msg => rw [hg] at h; simp at h
    | ok acc' =>
      rw [hg] at h
      simp only at h
      have h1 := ih h
      have h2 := rehash_count hg
      simp [h1, h2]
      omega

theorem rehash_lookup_mono {e : Env} {files : List String} {dest t : Table Key}
    {it : Nat} {k : Key} {y : String} (hm : y ∈ tlookup dest k)
    (h : rehash_and_add_to_table e files dest it = .ok t) : y ∈ tlookup t k := by
  induction files generalizing dest with
  | nil =>
    have h' : dest = t := by simpa [rehash_and_add_to_table] using h
    rwa [← h']
  | cons f rest ih =>
    simp only [rehash_and_add_to_table] at h
    by_cases hr : e.readable f
    · simp only [hr, if_true] at h
      cases hg : get_hash e f it with
      | error msg => rw [hg] at h; simp at h
      | ok d =>
        rw [hg] at h
        simp only at h
        exact ih (mem_tlookup_tbl_append _ _ hm) h
    · simp [hr] at h

theorem rehash_all_lookup_mono {e : Env} {groups : List (Key × List String)}
    {acc t : Table Key} {it : Nat} {k : Key} {y : String} (hm : y ∈ tlookup acc k)
    (h : rehash_all e groups acc it = .ok t) : y ∈ tlookup t k := by
  induction groups generalizing acc with
  | nil =>
    have h' : acc = t := by simpa [rehash_all] using h
    rwa [← h']
  | cons g rest ih =>
    obtain ⟨kk, files⟩ := g
    simp only [rehash_all] at h
    cases hg : rehash_and_add_to_table e files acc it with
    | error msg => rw [hg] at h; simp at h
    | ok acc' =>
      rw [hg] at h
      simp only at h
      exact ih (rehash_lookup_mono hm hg) h

/-- Every file processed by a successful rehash pass ends in the bucket of
its own digest. -/
theorem rehash_mem_digest {e : Env} {files : List String} {dest t : Table Key}
    {it : Nat} {x : String} (hx : x ∈ files)
    (h : rehash_and_add_to_table e files dest it = .ok t) :
    ∃ d, get_hash e x it = .ok d ∧ x ∈ tlookup t (Key.digest d) := by
  induction files generalizing dest with
  | nil => cases hx
  | cons f rest ih =>
    simp only [rehash_and_add_to_table] at h
    by_cases hr : e.readable f
    · simp only [hr, if_true] at h
      cases hg : get_hash e f it with
      | error msg => rw [hg] at h; simp at h
      | ok d =>
        rw [hg] at h
        simp only at h
        rcases List.mem_cons.mp hx with hh | hh
        · subst hh
          exact ⟨d, hg, rehash_lookup_mono
            (self_mem_tlookup_tbl_append dest (Key.digest d) x) h⟩
        · exact ih hh h
    · simp [hr] at h

theorem rehash_all_mem_digest {e : Env} {groups : List (Key × List String)}
    {acc t : Table Key} {it : Nat} {x : String} (hx : x ∈ filesOf groups)
    (h : rehash_all e groups acc it = .ok t) :
    ∃ d, get_hash e x it = .ok d ∧ x ∈ tlookup t (Key.digest d) := by
  induction groups generalizing acc with
  | nil => cases hx
  | cons g rest ih =>
    obtain ⟨kk, files⟩ := g
    simp only [rehash_all] at h
    cases hg : rehash_and_add_to_table e files acc it with
    | error msg => rw [hg] at h; simp at h
    | ok acc' =>
      rw [hg] at h
      simp only at h
      simp only [filesOf_cons, List.mem_append] at hx
      rcases hx with hh | hh
      · rcases rehash_mem_digest hh hg with ⟨d, hgd, hmem⟩
        exact ⟨d, hgd, rehash_all_lookup_mono hmem h⟩
      · exact ih hh h

/-- A successful rehash pass adds no file that it was not given. -/
theorem rehash_filesOf_sub {e : Env} {files : List String} {dest t : Table Key}
    {it : Nat} {x : String} (h : rehash_and_add_to_table e files dest it = .ok t)
    (hx : x ∈ filesOf t) : x ∈ filesOf dest ∨ x ∈ files := by
  induction files generalizing dest with
  | nil =>
    have h' : dest = t := by simpa [rehash_and_add_to_table] using h
    rw [← h'] at hx
    exact Or.inl hx
  | cons f rest ih =>
    simp only [rehash_and_add_to_table] at h
    by_cases hr : e.readable f
    · simp only [hr, if_true] at h
      cases hg : get_hash e f it with
      | error msg => rw [hg] at h; simp at h
      | ok d =>
        rw [hg] at h
        simp only at h
        rcases ih h with h' | h'
        · rcases mem_filesOf_tbl_append h' with h'' | h''
          · exact Or.inl h''
          · exact Or.inr (by simp [h''])
        · exact Or.inr (List.mem_cons_of_mem _ h')
    · simp [hr] at h

theorem rehash_all_filesOf_sub {e : Env} {groups : List (Key × List String)}
    {acc t : Table Key} {it : Nat} {x : String} (h : rehash_all e groups acc it = .ok t)
    (hx : x ∈ filesOf t) : x ∈ filesOf acc ∨ x ∈ filesOf groups := by
  induction groups generalizing acc with
  | nil =>
    have h' : acc = t := by simpa [rehash_all] using h
    rw [← h'] at hx
    exact Or.inl hx
  | cons g rest ih =>
    obtain ⟨kk, files⟩ := g
    simp only [rehash_all] at h
    cases hg : rehash_and_add_to_table e files acc it with
    | error msg => rw [hg] at h; simp at h
    | ok acc' =>
      rw [hg] at h
      simp only at h
      rcases ih h with h' | h'
      · rcases rehash_filesOf_sub hg h' with h'' | h''
        · exact Or.inl h''
        · exact Or.inr (by simp [h''])
      · exact Or.inr (by simp only [filesOf_cons, List.mem_append]; exact Or.inr h')

/-- `tbl_append` preserves an arbitrary key-member invariant, provided the
new pair satisfies it. -/
theorem tbl_append_entry_inv {K : Type} [DecidableEq K] {Q : K → String → Prop}
    {t : Table K} (hInv : ∀ p ∈ t, ∀ x ∈ p.2, Q p.1 x) {k : K} {f : String}
    (hQ : Q k f) : ∀ p ∈ tbl_append t k f, ∀ x ∈ p.2, Q p.1 x := by
  induction t with
  | nil =>
    intro p hp x hx
    simp [tbl_append] at hp
    subst hp
    simp at hx
    subst hx
    exact hQ
  | cons e t ih =>
    obtain ⟨k', fs⟩ := e
    intro p hp x hx
    by_cases hk : k' = k
    · simp only [tbl_append, if_pos hk] at hp
      rcases List.mem_cons.mp hp with hh | hh
      · subst hh
        simp only [List.mem_append, List.mem_singleton] at hx
        rcases hx with hx | hx
        · exact hInv (k', fs) (List.mem_cons_self _ _) x hx
        · subst hx
          rw [hk]
          exact hQ
      · exact hInv p (List.mem_cons_of_mem _ hh) x hx
    · simp only [tbl_append, if_neg hk] at hp
      rcases List.mem_cons.mp hp with hh | hh
      · subst hh
        exact hInv (k', fs) (List.mem_cons_self _ _) x hx
      · exact ih (fun q hq y hy => hInv q (List.mem_cons_of_mem _ hq) y hy) p hh x hx

/-- Invariant of tables built by rehashing: every entry key is the digest of
each of its members at the current iteration. -/
theorem rehash_key_inv {e : Env} {files : List String} {dest t : Table Key} {it : Nat}
    (hInv : ∀ p ∈ dest, ∀ x ∈ p.2, ∃ d, p.1 = Key.digest d ∧ get_hash e x it = .ok d)
    (h : rehash_and_add_to_table e files dest it = .ok t) :
    ∀ p ∈ t, ∀ x ∈ p.2, ∃ d, p.1 = Key.digest d ∧ get_hash e x it = .ok d := by
  induction files generalizing dest with
  | nil =>
    have h' : dest = t := by simpa [rehash_and_add_to_table] using h
    rw [← h']
    exact hInv
  | cons f rest ih =>
    simp only [rehash_and_add_to_table] at h
    by_cases hr : e.readable f
    · simp only [hr, if_true] at h
      cases hg : get_hash e f it with
      | error msg => rw [hg] at h; simp at h
      | ok d =>
        rw [hg] at h
        simp only at h
        have hQ : ∃ dd, Key.digest d = Key.digest dd ∧ get_hash e f it = .ok dd :=
          ⟨d, rfl, hg⟩
        exact ih (@tbl_append_entry_inv Key _
          (fun kk x => ∃ dd, kk = Key.digest dd ∧ get_hash e x it = .ok dd)
          dest hInv (Key.digest d) f hQ) h
    · simp [hr] at h

theorem rehash_all_key_inv {e : Env} {groups : List (Key × List String)}
    {acc t : Table Key} {it : Nat}
    (hInv : ∀ p ∈ acc, ∀ x ∈ p.2, ∃ d, p.1 = Key.digest d ∧ get_hash e x it = .ok d)
    (h : rehash_all e groups acc it = .ok t) :
    ∀ p ∈ t, ∀ x ∈ p.2, ∃ d, p.1 = Key.digest d ∧ get_hash e x it = .ok d := by
  induction groups generalizing acc with
  | nil =>
    have h' : acc = t := by simpa [rehash_all] using h
    rw [← h']
    exact hInv
  | cons g rest ih =>
    obtain ⟨kk, fls⟩ := g
    simp only [rehash_all] at h
    cases hg : rehash_and_add_to_table e fls acc it with
    | error msg => rw [hg] at h; simp at h
    | ok acc' =>
      rw [hg] at h
      simp only at h
      exact ih (rehash_key_inv hInv hg) h

/-- At the two hashing iterations, the only possible rehash error is the
failure to open or read a file. -/
theorem rehash_error_msg {e : Env} {files : List String} {dest : Table Key} {it : Nat}
    {m : String} (hit : it = 0 ∨ it = 1)
    (h : rehash_and_add_to_table e files dest it = .error m) :
    m = "Unable to read current file" := by
  induction files generalizing dest with
  | nil => simp [rehash_and_add_to_table] at h
  | cons f rest ih =>
    simp only [rehash_and_add_to_table] at h
    by_cases hr : e.readable f
    · simp only [hr, if_true] at h
      have hg : ∃ d, get_hash e f it = .ok d := by
        rcases hit with hh | hh <;> subst hh <;> simp [get_hash]
      rcases hg with ⟨d, hg⟩
      rw [hg] at h
      simp only at h
      exact ih h
    · simp only [hr] at h
      simp at h
      exact h.symm

theorem rehash_all_error_msg {e : Env} {groups : List (Key × List String)}
    {acc : Table Key} {it : Nat} {m : String} (hit : it = 0 ∨ it = 1)
    (h : rehash_all e groups acc it = .error m) :
    m = "Unable to read current file" := by
  induction groups generalizing acc with
  | nil => simp [rehash_all] at h
  | cons g rest ih =>
    obtain ⟨kk, fls⟩ := g
    simp only [rehash_all] at h
    cases hg : rehash_and_add_to_table e fls acc it with
    | error m' =>
      rw [hg] at h
      simp at h
      rw [← h]
      exact rehash_error_msg hit hg
    | ok acc' =>
      rw [hg] at h
      simp only at h
      exact ih h

/-- An unreadable file among those to be rehashed makes the rehash pass fail
with the read error. -/
theorem rehash_unreadable {e : Env} {files : List String} {dest : Table Key} {it : Nat}
    {x : String} (hit : it = 0 ∨ it = 1) (hx : x ∈ files) (hr : e.readable x = false) :
    rehash_and_add_to_table e files dest it = .error "Unable to read current file" := by
  induction files generalizing dest with
  | nil => cases hx
  | cons f rest ih =>
    simp only [rehash_and_add_to_table]
    by_cases hf : e.readable f
    · have hg : ∃ d, get_hash e f it = .ok d := by
        rcases hit with hh | hh <;> subst hh <;> simp [get_hash]
      rcases hg with ⟨d, hg⟩
      rw [hg]
      simp only [hf, if_true]
      rcases List.mem_cons.mp hx with hh | hh
      · subst hh
        rw [hf] at hr
        cases hr
      · exact ih hh
    · simp [hf]

theorem rehash_all_unreadable {e : Env} {groups : List (Key × List String)}
    {acc : Table Key} {it : Nat} {x : String} (hit : it = 0 ∨ it = 1)
    (hx : x ∈ filesOf groups) (hr : e.readable x = false) :
    rehash_all e groups acc it = .error "Unable to read current file" := by
  induction groups generalizing acc with
  | nil => cases hx
  | cons g rest ih =>
    obtain ⟨kk, fls⟩ := g
    simp only [rehash_all]
    simp only [filesOf_cons, List.mem_append] at hx
    rcases hx with hh | hh
    · rw [rehash_unreadable hit hh hr]
    · cases hg : rehash_and_add_to_table e fls acc it with
      | error m =>
        rw [rehash_error_msg hit hg]
      | ok acc' =>
        simp only
        exact ih hh

/-! ### Facts about the recorded hash invocations -/

theorem rehash_tr_trace {e : Env} {files : List String} {dest : Table Key} {it : Nat}
    {ev : String × Nat} (h : ev ∈ (rehash_and_add_to_table_tr e files dest it).2) :
    ev.1 ∈ files ∧ ev.2 = it := by
  induction files generalizing dest with
  | nil => simp [rehash_and_add_to_table_tr] at h
  | cons f rest ih =>
    simp only [rehash_and_add_to_table_tr] at h
    by_cases hr : e.readable f
    · simp only [hr, if_true] at h
      cases hg : get_hash e f it with
      | error msg =>
        rw [hg] at h
        simp at h
        simp [h]
      | ok d =>
        rw [hg] at h
        simp only [List.mem_cons] at h
        rcases h with hh | hh
        · simp [hh]
        · rcases ih hh with ⟨h1, h2⟩
          exact ⟨List.mem_cons_of_mem _ h1, h2⟩
    · simp [hr] at h

theorem rehash_all_tr_trace {e : Env} {groups : List (Key × List String)}
    {acc : Table Key} {it : Nat} {ev : String × Nat}
    (h : ev ∈ (rehash_all_tr e groups acc it).2) :
    ev.1 ∈ filesOf groups ∧ ev.2 = it := by
  induction groups generalizing acc with
  | nil => simp [rehash_all_tr] at h
  | cons g rest ih =>
    obtain ⟨kk, fls⟩ := g
    simp only [rehash_all_tr] at h
    cases hg : rehash_and_add_to_table_tr e fls acc it with
    | mk r tr =>
      cases r with
      | error msg =>
        rw [hg] at h
        simp only at h
        have h' : ev ∈ (rehash_and_add_to_table_tr e fls acc it).2 := by
          rw [hg]; exact h
        rcases rehash_tr_trace h' with ⟨h1, h2⟩
        exact ⟨by simp only [filesOf_cons, List.mem_append]; exact Or.inl h1, h2⟩
      | ok acc' =>
        rw [hg] at h
        simp only [List.mem_append] at h
        rcases h with hh | hh
        · have h' : ev ∈ (rehash_and_add_to_table_tr e fls acc it).2 := by
            rw [hg]; exact hh
          rcases rehash_tr_trace h' with ⟨h1, h2⟩
          exact ⟨by simp only [filesOf_cons, List.mem_append]; exact Or.inl h1, h2⟩
        · rcases ih hh with ⟨h1, h2⟩
          exact ⟨by simp only [filesOf_cons, List.mem_append]; exact Or.inr h1, h2⟩

/-! ### Facts about the terminal classification -/

theorem dup_foldl_mono {others : List String} {d : Table String} {l : String}
    {x : String} (h : x ∈ tlookup d l) :
    x ∈ tlookup (others.foldl (fun d x => tbl_append d "duplicate-files" x) d) l := by
  induction others generalizing d with
  | nil => exact h
  | cons o rest ih =>
    rw [List.foldl_cons]
    exact ih (mem_tlookup_tbl_append _ _ h)

theorem dup_foldl_mem {others : List String} {d : Table String} {x : String}
    (hx : x ∈ others) :
    x ∈ tlookup (others.foldl (fun d x => tbl_append d "duplicate-files" x) d)
      "duplicate-files" := by
  induction others generalizing d with
  | nil => cases hx
  | cons o rest ih =>
    rw [List.foldl_cons]
    rcases List.mem_cons.mp hx with hh | hh
    · subst hh
      exact dup_foldl_mono (self_mem_tlookup_tbl_append d "duplicate-files" x)
    · exact ih hh

theorem dup_foldl_count (others : List String) (d : Table String) :
    tcount (others.foldl (fun d x => tbl_append d "duplicate-files" x) d) =
      tcount d + others.length := by
  induction others generalizing d with
  | nil => simp
  | cons o rest ih =>
    rw [List.foldl_cons, ih, tcount_tbl_append]
    simp
    omega

/-- The terminal classification only appends: buckets keep their members. -/
theorem classify_mono {src : List (Key × List String)} {dest out : Table String}
    {l x : String} (hm : x ∈ tlookup dest l) (h : classify_final dest src = .ok out) :
    x ∈ tlookup out l := by
  induction src generalizing dest with
  | nil =>
    have h' : dest = out := by simpa [classify_final] using h
    rwa [← h']
  | cons g rest ih =>
    obtain ⟨k, fs⟩ := g
    cases fs with
    | nil => simp [classify_final] at h
    | cons f others =>
      simp only [classify_final] at h
      exact ih (dup_foldl_mono (mem_tlookup_tbl_append _ _ hm)) h

/-- The terminal classification of every group: the first member goes to its
extension bucket, every other member to `"duplicate-files"`. -/
theorem classify_spec {src : List (Key × List String)} {dest out : Table String}
    (h : classify_final dest src = .ok out) :
    ∀ p ∈ src, ∃ hd tl, p.2 = hd :: tl ∧ hd ∈ tlookup out (file_label hd) ∧
      ∀ x ∈ tl, x ∈ tlookup out "duplicate-files" := by
  induction src generalizing dest with
  | nil => intro p hp; cases hp
  | cons g rest ih =>
    obtain ⟨k, fs⟩ := g
    cases fs with
    | nil => simp [classify_final] at h
    | cons f others =>
      simp only [classify_final] at h
      intro p hp
      rcases List.mem_cons.mp hp with hh | hh
      · subst hh
        refine ⟨f, others, rfl, ?_, ?_⟩
        · exact classify_mono
            (dup_foldl_mono (self_mem_tlookup_tbl_append dest (file_label f) f)) h
        · intro x hx
          exact classify_mono (dup_foldl_mem hx) h
      · exact ih h p hh

/-- The terminal classification conserves handles. -/
theorem classify_count {src : List (Key × List String)} {dest out : Table String}
    (h : classify_final dest src = .ok out) :
    tcount out = tcount dest + tcount src := by
  induction src generalizing dest with
  | nil =>
    have h' : dest = out := by simpa [classify_final] using h
    simp [← h']
  | cons g rest ih =>
    obtain ⟨k, fs⟩ := g
    cases fs with
    | nil => simp [classify_final] at h
    | cons f others =>
      simp only [classify_final] at h
      have := ih h
      rw [this, dup_foldl_count, add_unique_file_to_table, tcount_tbl_append]
      simp
      omega

/-! ### Facts about whole runs -/

/-- The destination table only grows along a whole run: buckets keep their
members. -/
theorem find_dest_mono {e : Env} {src : Table Key} {dest out : Table String}
    {it : Nat} {l x : String} (hm : x ∈ tlookup dest l)
    (h : find_duplicate_files e src dest it = .ok out) : x ∈ tlookup out l := by
  induction src, dest, it using find_duplicate_files.induct e with
  | case1 src dest =>
    rw [find_dup_at2] at h
    exact classify_mono hm h
  | case2 src dest it hit hpot =>
    rw [find_duplicate_files, if_neg hit, dif_pos hpot] at h
    have hout : (pass_split src dest).1 = out := by simpa using h
    rw [← hout]
    exact pass_dest_mono src (dest, []) hm
  | case3 src dest it hit hpot msg hre =>
    rw [find_duplicate_files, if_neg hit, dif_neg hpot] at h
    split at h
    · simp at h
    · rename_i ns heq
      rw [hre] at heq
      cases heq
  | case4 src dest it hit hpot next_source hre ih =>
    rw [find_duplicate_files, if_neg hit, dif_neg hpot] at h
    split at h
    · rename_i m heq
      rw [hre] at heq
      cases heq
    · rename_i ns heq
      rw [hre] at heq
      have hns : next_source = ns := by injection heq
      rw [← hns] at h
      exact ih (pass_dest_mono src (dest, []) hm) h

theorem mem_filesOf_of_mem {K : Type} {t : Table K} {p : K × List String}
    {x : String} (hp : p ∈ t) (hx : x ∈ p.2) : x ∈ filesOf t := by
  simp only [filesOf, List.mem_flatMap]
  exact ⟨p, hp, hx⟩

/-- At iteration 2 the instrumented run classifies and performs no hash
invocation at all. -/
theorem find_tr_at2 (e : Env) (src : Table Key) (dest : Table String) :
    find_duplicate_files_tr e src dest 2 = (classify_final dest src, []) := by
  rw [find_duplicate_files_tr]
  simp

/-- Unfolding of the instrumented run entered at iteration 1. -/
theorem find_tr_at1 (e : Env) (s1 : Table Key) (dest : Table String) :
    find_duplicate_files_tr e s1 dest 1 =
      (if (pass_split s1 dest).2 = [] then
        ((.ok (pass_split s1 dest).1 : Except String (Table String)),
          ([] : List (String × Nat)))
       else
         match rehash_all_tr e (pass_split s1 dest).2 [] 1 with
         | (.error msg, tr) => (.error msg, tr)
         | (.ok s2, tr) => (classify_final (pass_split s1 dest).1 s2, tr)) := by
  rw [find_duplicate_files_tr]
  rw [if_neg (by decide : ¬(1 : Nat) = 2)]
  by_cases h : (pass_split s1 dest).2 = []
  · simp [h]
  · rw [dif_neg h, if_neg h]
    cases hrh : rehash_all_tr e (pass_split s1 dest).2 [] 1 with
    | mk r tr =>
      cases r with
      | error msg => rfl
      | ok s2 => simp [find_tr_at2]

/-- Unfolding of a whole instrumented run (entered at iteration 0). -/
theorem find_tr_unfold0 (e : Env) (src : Table Key) (dest : Table String) :
    find_duplicate_files_tr e src dest 0 =
      (if (pass_split src dest).2 = [] then
        ((.ok (pass_split src dest).1 : Except String (Table String)),
          ([] : List (String × Nat)))
       else
         match rehash_all_tr e (pass_split src dest).2 [] 0 with
         | (.error msg, tr) => (.error msg, tr)
         | (.ok s1, tr) =>
           if (pass_split s1 (pass_split src dest).1).2 = [] then
             (.ok (pass_split s1 (pass_split src dest).1).1, tr)
           else
             match rehash_all_tr e (pass_split s1 (pass_split src dest).1).2 [] 1 with
             | (.error msg, tr') => (.error msg, tr ++ tr')
             | (.ok s2, tr') =>
                 (classify_final (pass_split s1 (pass_split src dest).1).1 s2,
                   tr ++ tr')) := by
  rw [find_duplicate_files_tr]
  rw [if_neg (by decide : ¬(0 : Nat) = 2)]
  by_cases h : (pass_split src dest).2 = []
  · simp [h]
  · rw [dif_neg h, if_neg h]
    cases hrh : rehash_all_tr e (pass_split src dest).2 [] 0 with
    | mk r tr =>
      cases r with
      | error msg => rfl
      | ok s1 =>
        simp only
        rw [find_tr_at1]
        by_cases h1 : (pass_split s1 (pass_split src dest).1).2 = []
        · simp [h1]
        · rw [if_neg h1, if_neg h1]
          cases hrh1 : rehash_all_tr e (pass_split s1 (pass_split src dest).1).2 [] 1 with
          | mk r' tr' =>
            cases r' with
            | error msg => rfl
            | ok s2 => rfl

/-- The instrumented run computes the same classification as the plain one. -/
theorem find_tr_fst (e : Env) (src : Table Key) (dest : Table String) (it : Nat) :
    (find_duplicate_files_tr e src dest it).1 = find_duplicate_files e src dest it := by
  induction src, dest, it using find_duplicate_files_tr.induct e with
  | case1 src dest =>
    rw [find_tr_at2, find_dup_at2]
  | case2 src dest it hit hpot =>
    rw [find_duplicate_files_tr, find_duplicate_files, if_neg hit, if_neg hit,
      dif_pos hpot, dif_pos hpot]
  | case3 src dest it hit hpot msg tr hre =>
    rw [find_duplicate_files_tr, find_duplicate_files, if_neg hit, if_neg hit,
      dif_neg hpot, dif_neg hpot]
    have hfst : rehash_all e (pass_split src dest).2 [] it = .error msg := by
      rw [← rehash_all_tr_fst, hre]
    split
    · rename_i msg2 tr2 heqL
      rw [hre] at heqL
      simp only [Prod.mk.injEq] at heqL
      obtain ⟨h1, h2⟩ := heqL
      injection h1 with h1
      subst h1
      split
      · rename_i m2 heq2
        rw [hfst] at heq2
        injection heq2 with hmm
        simp [hmm]
      · rename_i ns heq2
        rw [hfst] at heq2
        cases heq2
    · rename_i ns tr2 heqL
      rw [hre] at heqL
      simp at heqL
  | case4 src dest it hit hpot next_source tr hre ih =>
    rw [find_duplicate_files_tr, find_duplicate_files, if_neg hit, if_neg hit,
      dif_neg hpot, dif_neg hpot]
    have hfst : rehash_all e (pass_split src dest).2 [] it = .ok next_source := by
      rw [← rehash_all_tr_fst, hre]
    split
    · rename_i m2 tr2 heqL
      rw [hre] at heqL
      simp at heqL
    · rename_i ns2 tr2 heqL
      rw [hre] at heqL
      simp only [Prod.mk.injEq] at heqL
      obtain ⟨h1, h2⟩ := heqL
      injection h1 with h1
      subst h1
      split
      · rename_i m2 heq2
        rw [hfst] at heq2
        cases heq2
      · rename_i ns heq2
        rw [hfst] at heq2
        injection heq2 with h3
        simp only
        rw [← h3]
        exact ih

/-- A file appearing only in singleton groups of the source is never pooled. -/
theorem f_not_in_pot {src : Table Key} {dest : Table String} {f : String}
    (hsing : ∀ p ∈ src, f ∈ p.2 → p.2 = [f]) :
    f ∉ filesOf (pass_split src dest).2 := by
  intro hmem
  rcases pass_pot_sub src (dest, []) hmem with h | ⟨p, hp, hx, hlen⟩
  · simp at h
  · have := hsing p hp hx
    rw [this] at hlen
    simp at hlen

/-- A file appearing only in singleton groups of the source table is never
passed to `get_hash` during the rest of the run, whatever the current
iteration. -/
theorem singleton_not_hashed {e : Env} {src : Table Key} {dest : Table String}
    {it : Nat} {f : String} (hsing : ∀ p ∈ src, f ∈ p.2 → p.2 = [f]) :
    ∀ ev ∈ (find_duplicate_files_tr e src dest it).2, ev.1 ≠ f := by
  induction src, dest, it using find_duplicate_files_tr.induct e with
  | case1 src dest =>
    rw [find_tr_at2]
    simp
  | case2 src dest it hit hpot =>
    rw [find_duplicate_files_tr, if_neg hit, dif_pos hpot]
    simp
  | case3 src dest it hit hpot msg tr hre =>
    rw [find_duplicate_files_tr, if_neg hit, dif_neg hpot]
    split
    · rename_i msg2 tr2 heqL
      rw [hre] at heqL
      simp only [Prod.mk.injEq] at heqL
      obtain ⟨h1, h2⟩ := heqL
      subst h2
      intro ev hev hf
      have hev' : ev ∈ (rehash_all_tr e (pass_split src dest).2 [] it).2 := by
        rw [hre]; exact hev
      rcases rehash_all_tr_trace hev' with ⟨hmem, _⟩
      rw [hf] at hmem
      exact f_not_in_pot hsing hmem
    · rename_i ns tr2 heqL
      rw [hre] at heqL
      simp at heqL
  | case4 src dest it hit hpot next_source tr hre ih =>
    rw [find_duplicate_files_tr, if_neg hit, dif_neg hpot]
    have hfst : rehash_all e (pass_split src dest).2 [] it = .ok next_source := by
      rw [← rehash_all_tr_fst, hre]
    have hnot : f ∉ filesOf next_source := by
      intro hmem
      rcases rehash_all_filesOf_sub hfst hmem with h | h
      · simp at h
      · exact f_not_in_pot hsing h
    have hsing' : ∀ p ∈ next_source, f ∈ p.2 → p.2 = [f] := by
      intro p hp hx
      exact absurd (mem_filesOf_of_mem hp hx) hnot
    split
    · rename_i m2 tr2 heqL
      rw [hre] at heqL
      simp at heqL
    · rename_i ns2 tr2 heqL
      rw [hre] at heqL
      simp only [Prod.mk.injEq] at heqL
      obtain ⟨h1, h2⟩ := heqL
      injection h1 with h1
      subst h1
      subst h2
      intro ev hev hf
      simp only [List.mem_append] at hev
      rcases hev with hev | hev
      · have hev' : ev ∈ (rehash_all_tr e (pass_split src dest).2 [] it).2 := by
          rw [hre]; exact hev
        rcases rehash_all_tr_trace hev' with ⟨hmem, _⟩
        rw [hf] at hmem
        exact f_not_in_pot hsing hmem
      · exact ih hsing' ev hev hf

/-- A file appearing (only) in a singleton group of the source table is
classified into its extension bucket by any successful rest of a run. -/
theorem singleton_classified {e : Env} {src : Table Key} {dest out : Table String}
    {it : Nat} {f : String} (hsing : ∀ p ∈ src, f ∈ p.2 → p.2 = [f])
    (hocc : ∃ p ∈ src, f ∈ p.2)
    (h : find_duplicate_files e src dest it = .ok out) :
    f ∈ tlookup out (file_label f) := by
  obtain ⟨p, hp, hx⟩ := hocc
  obtain ⟨k, fs⟩ := p
  have hfs : fs = [f] := hsing (k, fs) hp hx
  subst hfs
  induction src, dest, it using find_duplicate_files.induct e with
  | case1 src dest =>
    rw [find_dup_at2] at h
    rcases classify_spec h (k, [f]) hp with ⟨hd, tl, hcons, hmem, _⟩
    simp only at hcons
    injection hcons with hh ht
    rw [hh]
    exact hmem
  | case2 src dest it hit hpot =>
    rw [find_duplicate_files, if_neg hit, dif_pos hpot] at h
    have hout : (pass_split src dest).1 = out := by simpa using h
    rw [← hout]
    exact pass_dest_of_singleton (dest, []) hp
  | case3 src dest it hit hpot msg hre =>
    rw [find_duplicate_files, if_neg hit, dif_neg hpot] at h
    split at h
    · simp at h
    · rename_i ns heq
      rw [hre] at heq
      cases heq
  | case4 src dest it hit hpot next_source hre ih =>
    rw [find_duplicate_files, if_neg hit, dif_neg hpot] at h
    split at h
    · rename_i m heq
      rw [hre] at heq
      cases heq
    · rename_i ns heq
      rw [hre] at heq
      have hns : next_source = ns := by injection heq
      rw [← hns] at h
      exact find_dest_mono (pass_dest_of_singleton (dest, []) hp) h

/-- Packaged conservation of the classification pass. -/
theorem pass_split_count (src : Table Key) (dest : Table String) :
    tcount (pass_split src dest).1 + tcount (pass_split src dest).2 =
      tcount dest + tcount src := by
  have h := pass_count src (dest, [])
  simpa [pass_split] using h

/-! ### The claims -/

/-- C2: for every input grouping the refinement loop terminates after at
most 3 levels: a whole run entered at iteration 0 is exactly the bounded
three-level computation (level 0 pass, level 1 pass, terminal
classification), and at iteration 2 the function classifies every remaining
group and returns — performing no hash invocation — regardless of whether
full-digest groups still contain more than one member. -/
theorem claim_C2 (e : Env) (src : Table Key) (dest : Table String) :
    find_duplicate_files e src dest 2 = classify_final dest src ∧
    (find_duplicate_files_tr e src dest 2).2 = [] ∧
    find_duplicate_files e src dest 0 =
      (if (pass_split src dest).2 = [] then .ok (pass_split src dest).1
       else
         match rehash_all e (pass_split src dest).2 [] 0 with
         | .error msg => .error msg
         | .ok s1 =>
           if (pass_split s1 (pass_split src dest).1).2 = [] then
             .ok (pass_split s1 (pass_split src dest).1).1
           else
             match rehash_all e (pass_split s1 (pass_split src dest).1).2 [] 1 with
             | .error msg => .error msg
             | .ok s2 => classify_final (pass_split s1 (pass_split src dest).1).1 s2) := by
  refine ⟨find_dup_at2 e src dest, ?_, find_dup_unfold0 e src dest⟩
  rw [find_tr_at2]

/-- C1: conservation.  A whole run that completes without error accounts for
every input handle exactly once on top of the destination table, and a
single grouping pass (`rehash_and_add_to_table`) drops no handle: its output
table holds exactly the handles of its input table plus those of its input
list. -/
theorem claim_C1 (e : Env) :
    (∀ (src : Table Key) (dest out : Table String),
      find_duplicate_files e src dest 0 = .ok out →
      tcount out = tcount dest + tcount src) ∧
    (∀ (files : List String) (dest t : Table Key) (it : Nat),
      rehash_and_add_to_table e files dest it = .ok t →
      tcount t = tcount dest + files.length) := by
  constructor
  · intro src dest out h
    rw [find_dup_unfold0] at h
    have hc0 := pass_split_count src dest
    by_cases h0 : (pass_split src dest).2 = []
    · rw [if_pos h0] at h
      have hout : (pass_split src dest).1 = out := by simpa using h
      rw [h0] at hc0
      simp only [tcount_nil] at hc0
      rw [← hout]
      omega
    · rw [if_neg h0] at h
      cases hre0 : rehash_all e (pass_split src dest).2 [] 0 with
      | error msg => rw [hre0] at h; simp at h
      | ok s1 =>
        rw [hre0] at h
        simp only at h
        have hs1 : tcount s1 = tcount (pass_split src dest).2 := by
          have hh := rehash_all_count hre0
          simpa using hh
        have hc1 := pass_split_count s1 (pass_split src dest).1
        by_cases h1 : (pass_split s1 (pass_split src dest).1).2 = []
        · rw [if_pos h1] at h
          have hout : (pass_split s1 (pass_split src dest).1).1 = out := by simpa using h
          rw [h1] at hc1
          simp only [tcount_nil] at hc1
          rw [← hout]
          omega
        · rw [if_neg h1] at h
          cases hre1 : rehash_all e (pass_split s1 (pass_split src dest).1).2 [] 1 with
          | error msg => rw [hre1] at h; simp at h
          | ok s2 =>
            rw [hre1] at h
            simp only at h
            have hs2 : tcount s2 = tcount (pass_split s1 (pass_split src dest).1).2 := by
              have hh := rehash_all_count hre1
              simpa using hh
            have hcf := classify_count h
            omega
  · intro files dest t it h
    exact rehash_count h

/-! ### The labelling rule (claim C7) -/

theorem rfind_aux_fst (cs : List Char) (c : Char) (n m : Int) :
    (cs.foldl (fun (st : Int × Int) ch =>
      (st.1 + 1, if ch = c then st.1 else st.2)) (n, m)).1 = n + cs.length := by
  induction cs generalizing n m with
  | nil => simp
  | cons ch rest ih =>
    simp only [List.foldl_cons, ih, List.length_cons]
    push_cast
    omega

theorem rfind_snoc (cs : List Char) (ch c : Char) :
    rfind (cs ++ [ch]) c = if ch = c then (cs.length : Int) else rfind cs c := by
  have hf := rfind_aux_fst cs c 0 (-1)
  unfold rfind
  rw [List.foldl_append]
  simp only [List.foldl_cons, List.foldl_nil]
  by_cases h : ch = c
  · rw [if_pos h, if_pos h, hf]
    omega
  · rw [if_neg h, if_neg h]

theorem rfind_not_mem {cs : List Char} {c : Char} (h : c ∉ cs) : rfind cs c = -1 := by
  induction cs using List.reverseRecOn with
  | nil => rfl
  | append_singleton cs ch ih =>
    rw [rfind_snoc]
    have hch : ¬ ch = c := fun hh => h (by simp [hh])
    rw [if_neg hch]
    exact ih (fun hc => h (by simp [hc]))

/-- Spec-side helper for the amended claim: the text after the final dot of
a filename, `none` when the name has no dot. -/
def after_last_dot : List Char → Option (List Char)
  | [] => none
  | c :: cs =>
    match after_last_dot cs with
    | some r => some r
    | none => if c = '.' then some cs else none

/-- Spec-side helper for the amended claim: the text before the final dot of
a filename, `none` when the name has no dot. -/
def before_last_dot : List Char → Option (List Char)
  | [] => none
  | c :: cs =>
    match before_last_dot cs with
    | some r => some (c :: r)
    | none => if c = '.' then some [] else none

/-- The labelling rule as the amended claim words it: the bucket label is
the text after the final dot, without the dot, suffixed `"-files"` —
except that a filename with no dot, or one whose characters before its
final dot are all dots themselves (a dotfile such as `".bashrc"`), counts
as having no extension and maps to `"no-extension-files"`. -/
def spec_label (p : String) : String :=
  match after_last_dot p.toList, before_last_dot p.toList with
  | some ext, some pre =>
    if pre.any (fun ch => decide (ch ≠ '.')) then String.mk ext ++ "-files"
    else "no-extension-files"
  | _, _ => "no-extension-files"

theorem after_last_dot_not_mem {cs : List Char} (h : '.' ∉ cs) :
    after_last_dot cs = none := by
  induction cs with
  | nil => rfl
  | cons c rest ih =>
    simp only [after_last_dot]
    rw [ih (fun hc => h (List.mem_cons_of_mem _ hc))]
    have hc : ¬ c = '.' := fun hh => h (by simp [hh])
    simp [hc]

theorem before_last_dot_not_mem {cs : List Char} (h : '.' ∉ cs) :
    before_last_dot cs = none := by
  induction cs with
  | nil => rfl
  | cons c rest ih =>
    simp only [before_last_dot]
    rw [ih (fun hc => h (List.mem_cons_of_mem _ hc))]
    have hc : ¬ c = '.' := fun hh => h (by simp [hh])
    simp [hc]

theorem after_last_dot_snoc (cs : List Char) (ch : Char) :
    after_last_dot (cs ++ [ch]) =
      if ch = '.' then some [] else (after_last_dot cs).map (fun r => r ++ [ch]) := by
  induction cs with
  | nil =>
    simp only [List.nil_append, after_last_dot]
    by_cases h : ch = '.' <;> simp [h]
  | cons c rest ih =>
    simp only [List.cons_append, after_last_dot, List.append_eq]
    rw [ih]
    by_cases h : ch = '.'
    · simp [h]
    · cases hrest : after_last_dot rest <;> by_cases hc : c = '.' <;>
        simp [h, hrest, hc]

theorem before_last_dot_snoc (cs : List Char) (ch : Char) :
    before_last_dot (cs ++ [ch]) =
      if ch = '.' then some cs else before_last_dot cs := by
  induction cs with
  | nil => simp only [List.nil_append, before_last_dot]
  | cons c rest ih =>
    simp only [List.cons_append, before_last_dot, List.append_eq]
    rw [ih]
    by_cases h : ch = '.' <;> simp [h]

/-- A name containing a dot has a well-defined last-dot position `d`, and
the spec-side helpers split the name exactly there. -/
theorem last_dot_spec {cs : List Char} (hc : '.' ∈ cs) :
    ∃ d : Nat, rfind cs '.' = (d : Int) ∧ d < cs.length ∧
      after_last_dot cs = some (cs.drop (d + 1)) ∧
      before_last_dot cs = some (cs.take d) := by
  induction cs using List.reverseRecOn with
  | nil => cases hc
  | append_singleton cs ch ih =>
    rw [rfind_snoc, after_last_dot_snoc, before_last_dot_snoc]
    by_cases h : ch = '.'
    · refine ⟨cs.length, by rw [if_pos h], by simp, ?_, ?_⟩
      · rw [if_pos h]
        have hnil : (cs ++ [ch]).drop (cs.length + 1) = [] :=
          List.drop_eq_nil_of_le (by simp)
        rw [hnil]
      · rw [if_pos h, List.take_append_of_le_length (le_refl cs.length),
          List.take_length]
    · have hcs : '.' ∈ cs := by
        rcases List.mem_append.mp hc with h' | h'
        · exact h'
        · simp only [List.mem_singleton] at h'
          exact absurd h'.symm h
      rcases ih hcs with ⟨d, h1, h2, h3, h4⟩
      refine ⟨d, by rw [if_neg h]; exact h1, by simp; omega, ?_, ?_⟩
      · rw [if_neg h, h3]
        simp only [Option.map_some']
        rw [List.drop_append_of_le_length (by omega)]
      · rw [if_neg h, h4, List.take_append_of_le_length (by omega)]

/-- The dot-finding condition of `splitext` (for slash-free names) agrees
with the spec-side condition "some character before the final dot is not a
dot". -/
theorem splitext_cond_eq {cs : List Char} {d : Nat} (hd : d ≤ cs.length) :
    ((List.range cs.length).any fun i =>
        decide ((-1 : Int) < (i : Int)) && decide ((i : Int) < (d : Int)) &&
        decide (cs.getD i '.' ≠ '.'))
      = (cs.take d).any (fun ch => decide (ch ≠ '.')) := by
  rw [Bool.eq_iff_iff]
  simp only [List.any_eq_true, List.mem_range, Bool.and_eq_true, decide_eq_true_eq]
  constructor
  · rintro ⟨i, hilen, ⟨⟨-, hid⟩, hne⟩⟩
    have hid' : i < d := by exact_mod_cast hid
    refine ⟨cs.getD i '.', ?_, hne⟩
    rw [List.getD_eq_getElem _ _ hilen]
    exact List.mem_take_iff_getElem.mpr ⟨i, by omega, rfl⟩
  · rintro ⟨x, hx, hne⟩
    rcases List.mem_take_iff_getElem.mp hx with ⟨i, hi, hxi⟩
    have hilen : i < cs.length := by
      rcases Nat.lt_min.mp hi with ⟨-, hh⟩
      exact hh
    refine ⟨i, hilen, ⟨⟨by omega, ?_⟩, ?_⟩⟩
    · have : i < d := (Nat.lt_min.mp hi).1
      exact_mod_cast this
    · rw [List.getD_eq_getElem _ _ hilen, hxi]
      exact hne

theorem toList_mk (l : List Char) : (String.mk l).toList = l := rfl

theorem mk_eq_empty_iff (l : List Char) : String.mk l = "" ↔ l = [] := by
  constructor
  · intro h
    have hh : (String.mk l).toList = ("" : String).toList := by rw [h]
    simpa using hh
  · intro h
    rw [h]

/-- The code's bucket label agrees with the amended rule for every
slash-free filename. -/
theorem file_label_eq_spec_label (file : String) (hs : '/' ∉ file.toList) :
    file_label file = spec_label file := by
  have hsep : rfind file.toList '/' = -1 := rfind_not_mem hs
  simp only [file_label, splitext, spec_label, hsep]
  by_cases hdot : '.' ∈ file.toList
  · rcases last_dot_spec hdot with ⟨d, h1, h2, h3, h4⟩
    have hcond := @splitext_cond_eq file.toList d (Nat.le_of_lt h2)
    rw [h1, h3, h4]
    rw [if_pos (show (-1 : Int) < (d : Int) by omega)]
    rw [hcond]
    have htn : ((d : Int)).toNat = d := Int.toNat_natCast d
    cases hb : (file.toList.take d).any (fun ch => decide (ch ≠ '.')) with
    | false =>
      simp only [hb, Bool.false_eq_true, if_false]
      have hnex : ¬ ∃ x ∈ List.take d file.data, ¬x = '.' := by
        intro hex
        rcases hex with ⟨x, hx, hxe⟩
        have ht : ((List.take d file.toList).any fun ch => decide (ch ≠ '.')) = true :=
          List.any_eq_true.mpr ⟨x, hx, by simpa using hxe⟩
        rw [ht] at hb
        cases hb
      simp [hnex]
    | true =>
      have hex : ∃ x ∈ List.take d file.data, ¬x = '.' := by
        rcases List.any_eq_true.mp hb with ⟨x, hx, hxe⟩
        exact ⟨x, hx, by simpa using hxe⟩
      have hne2 : ({ data := List.drop d file.data } : String) ≠ "" := by
        have hlen : file.data.length = file.toList.length := rfl
        rw [Ne, mk_eq_empty_iff, List.drop_eq_nil_iff]
        omega
      simp [hb, htn, toList_mk, List.drop_drop, hne2, hex]
  · have hdotidx : rfind file.toList '.' = -1 := rfind_not_mem hdot
    rw [hdotidx, after_last_dot_not_mem hdot]
    simp

/-- C7 counterexample: the claim derives the label from the text after the
final dot for every filename, which for the dotfile `".bashrc"` would be
the bucket `"bashrc-files"`; the code instead treats a leading-dot name as
having no extension and files it under `"no-extension-files"`. -/
theorem claim_C7_counterexample :
    add_unique_file_to_table ".bashrc" [] = [("no-extension-files", [".bashrc"])] ∧
    add_unique_file_to_table ".bashrc" [] ≠ [("bashrc-files", [".bashrc"])] := by
  constructor
  · decide
  · decide

/-- C7 (amended): for every slash-free file handle,
`add_unique_file_to_table` appends the handle to the bucket given by the
rule: the text after the final dot, without the dot, suffixed `"-files"`,
except that a name with no dot — or a name whose characters before its
final dot are all dots, such as `".bashrc"` — is placed under the sentinel
`"no-extension-files"` (so `"README"` lands in `"no-extension-files"`). -/
theorem claim_C7 (file : String) (dest : Table String) (hs : '/' ∉ file.toList) :
    add_unique_file_to_table file dest = tbl_append dest (spec_label file) file := by
  unfold add_unique_file_to_table
  rw [file_label_eq_spec_label file hs]

/-- Witness for C7: the amended rule at the spec's own example `"README"`
and at a dotted name `"a.txt"`. -/
theorem claim_C7_witness :
    ('/' ∉ "README".toList ∧
      add_unique_file_to_table "README" [] =
        tbl_append [] (spec_label "README") "README" ∧
      spec_label "README" = "no-extension-files") ∧
    ('/' ∉ "a.txt".toList ∧
      add_unique_file_to_table "a.txt" [] =
        tbl_append [] (spec_label "a.txt") "a.txt" ∧
      spec_label "a.txt" = "txt-files") :=
  ⟨⟨by decide, claim_C7 "README" [] (by decide), by decide⟩,
   ⟨by decide, claim_C7 "a.txt" [] (by decide), by decide⟩⟩

theorem length_ne_one_of_two_mem {l : List String} {a b : String} (ha : a ∈ l)
    (hb : b ∈ l) (hab : a ≠ b) : l.length ≠ 1 := by
  intro hl
  rcases List.length_eq_one.mp hl with ⟨x, hx⟩
  subst hx
  simp only [List.mem_singleton] at ha hb
  exact hab (ha.trans hb.symm)

/-- C3: monotonic refinement and singleton promotion.  A file whose groups
in the source table are all the singleton of itself is never passed to
`get_hash` for the rest of the run (so a file unique by size is never
hashed at all, a level-0 singleton is not hashed for the level-1 digest,
and a level-1 singleton is not hashed for the level-2 digest), and any
successful run classifies it into its extension bucket. -/
theorem claim_C3 (e : Env) (src : Table Key) (dest : Table String) (it : Nat)
    (f : String) (hsing : ∀ p ∈ src, f ∈ p.2 → p.2 = [f]) :
    (∀ ev ∈ (find_duplicate_files_tr e src dest it).2, ev.1 ≠ f) ∧
    (∀ out, (∃ p ∈ src, f ∈ p.2) →
      find_duplicate_files e src dest it = .ok out →
      f ∈ tlookup out (file_label f)) := by
  refine ⟨singleton_not_hashed hsing, ?_⟩
  intro out hocc h
  exact singleton_classified hsing hocc h

/-- C4: duplicate symmetry and terminal step.  Two distinct files with
identical contents that share a group of the input end in the same group of
the level-2 table; the run is exactly the terminal classification of that
table; and the terminal classification sends the first member of every
group to its extension bucket and every other member to the
`"duplicate-files"` bucket. -/
theorem claim_C4 (e : Env) (src : Table Key) (dest : Table String)
    (f1 f2 : String) (s1 s2 : Table Key) (hne : f1 ≠ f2)
    (hcont : e.content f1 = e.content f2)
    (hgrp : ∃ p ∈ src, f1 ∈ p.2 ∧ f2 ∈ p.2)
    (hre0 : rehash_all e (pass_split src dest).2 [] 0 = .ok s1)
    (hre1 : rehash_all e (pass_split s1 (pass_split src dest).1).2 [] 1 = .ok s2) :
    (∃ p ∈ s2, f1 ∈ p.2 ∧ f2 ∈ p.2) ∧
    find_duplicate_files e src dest 0 =
      classify_final (pass_split s1 (pass_split src dest).1).1 s2 ∧
    (∀ out, classify_final (pass_split s1 (pass_split src dest).1).1 s2 = .ok out →
      ∀ p ∈ s2, ∃ hd tl, p.2 = hd :: tl ∧ hd ∈ tlookup out (file_label hd) ∧
        ∀ x ∈ tl, x ∈ tlookup out "duplicate-files") := by
  obtain ⟨p, hp, hf1, hf2⟩ := hgrp
  have hlen : p.2.length ≠ 1 := length_ne_one_of_two_mem hf1 hf2 hne
  have hpot1 : f1 ∈ filesOf (pass_split src dest).2 :=
    pass_pot_of_mem (dest, []) hp hf1 hlen
  have hpot2 : f2 ∈ filesOf (pass_split src dest).2 :=
    pass_pot_of_mem (dest, []) hp hf2 hlen
  rcases rehash_all_mem_digest hpot1 hre0 with ⟨d1, hg1, hm1⟩
  rcases rehash_all_mem_digest hpot2 hre0 with ⟨d2, hg2, hm2⟩
  have hgg : get_hash e f1 0 = get_hash e f2 0 := by simp [get_hash, hcont]
  have hd12 : d1 = d2 := by
    rw [hg1, hg2] at hgg
    injection hgg
  rw [← hd12] at hm2
  -- the common level-1 group
  have hlook_ne : tlookup s1 (Key.digest d1) ≠ [] := by
    intro hnil
    rw [hnil] at hm1
    cases hm1
  have hentry1 : (Key.digest d1, tlookup s1 (Key.digest d1)) ∈ s1 :=
    tlookup_entry_mem hlook_ne
  have hlen1 : (tlookup s1 (Key.digest d1)).length ≠ 1 :=
    length_ne_one_of_two_mem hm1 hm2 hne
  have hpot1' : f1 ∈ filesOf (pass_split s1 (pass_split src dest).1).2 :=
    pass_pot_of_mem ((pass_split src dest).1, []) hentry1 hm1 hlen1
  have hpot2' : f2 ∈ filesOf (pass_split s1 (pass_split src dest).1).2 :=
    pass_pot_of_mem ((pass_split src dest).1, []) hentry1 hm2 hlen1
  rcases rehash_all_mem_digest hpot1' hre1 with ⟨d1', hg1', hm1'⟩
  rcases rehash_all_mem_digest hpot2' hre1 with ⟨d2', hg2', hm2'⟩
  have hgg' : get_hash e f1 1 = get_hash e f2 1 := by simp [get_hash, hcont]
  have hd12' : d1' = d2' := by
    rw [hg1', hg2'] at hgg'
    injection hgg'
  rw [← hd12'] at hm2'
  have hlook_ne' : tlookup s2 (Key.digest d1') ≠ [] := by
    intro hnil
    rw [hnil] at hm1'
    cases hm1'
  refine ⟨⟨(Key.digest d1', tlookup s2 (Key.digest d1')),
    tlookup_entry_mem hlook_ne', hm1', hm2'⟩, ?_, ?_⟩
  · rw [find_dup_unfold0, if_neg (pass_pot_ne_nil dest hp hlen), hre0]
    simp only
    rw [if_neg (pass_pot_ne_nil (pass_split src dest).1 hentry1 hlen1), hre1]
  · intro out hout q hq
    exact classify_spec hout q hq

/-- C5: deterministic survivor.  Two runs over the same input grouping in
environments with the same contents, readability and digest function
produce the same classification, and within every terminal group the
first-inserted member is the one classified unique (by extension). -/
theorem claim_C5 (e1 e2 : Env) (src : Table Key) (dest : Table String)
    (hc : e1.content = e2.content) (hr : e1.readable = e2.readable)
    (hh : e1.sha256 = e2.sha256) :
    find_duplicate_files e1 src dest 0 = find_duplicate_files e2 src dest 0 ∧
    (∀ (d : Table String) (s : List (Key × List String)) (out : Table String),
      classify_final d s = .ok out →
      ∀ p ∈ s, ∃ hd tl, p.2 = hd :: tl ∧ hd ∈ tlookup out (file_label hd)) := by
  have he : e1 = e2 := by
    cases e1
    cases e2
    simp_all
  constructor
  · rw [he]
  · intro d s out h p hp
    rcases classify_spec h p hp with ⟨hd, tl, hcons, hmem, -⟩
    exact ⟨hd, tl, hcons, hmem⟩

/-- C6: error atomicity.  If some group of more than one member holds a
file that cannot be opened or read, the whole run aborts with the read
error and no classification is produced. -/
theorem claim_C6 (e : Env) (src : Table Key) (dest : Table String) (f : String)
    (hgrp : ∃ p ∈ src, f ∈ p.2 ∧ p.2.length ≠ 1)
    (hunread : e.readable f = false) :
    find_duplicate_files e src dest 0 = .error "Unable to read current file" ∧
    ∀ out, find_duplicate_files e src dest 0 ≠ .ok out := by
  obtain ⟨p, hp, hf, hlen⟩ := hgrp
  have hpot : f ∈ filesOf (pass_split src dest).2 :=
    pass_pot_of_mem (dest, []) hp hf hlen
  have hpne : (pass_split src dest).2 ≠ [] := pass_pot_ne_nil dest hp hlen
  have herr : rehash_all e (pass_split src dest).2 [] 0 =
      .error "Unable to read current file" :=
    rehash_all_unreadable (Or.inl rfl) hpot hunread
  have hrun : find_duplicate_files e src dest 0 =
      .error "Unable to read current file" := by
    rw [find_dup_unfold0, if_neg hpne, herr]
  refine ⟨hrun, ?_⟩
  intro out
  rw [hrun]
  simp

/-- C9: cross-size group merging.  The rehash after level 0 pools all
ambiguous groups into one table keyed only by the digest, so two files from
different ambiguous size groups whose first 1024 bytes agree land in the
same level-1 group; and whenever their full digests differ, the level-2
table separates them again. -/
theorem claim_C9 (e : Env) (src : Table Key) (dest : Table String)
    (f1 f2 : String) (p1 p2 : Key × List String) (s1 : Table Key)
    (hp1 : p1 ∈ src) (hp2 : p2 ∈ src) (hkeys : p1.1 ≠ p2.1)
    (hf1 : f1 ∈ p1.2) (hf2 : f2 ∈ p2.2)
    (hl1 : p1.2.length ≠ 1) (hl2 : p2.2.length ≠ 1)
    (hpart : (e.content f1).take byte_chunk = (e.content f2).take byte_chunk)
    (hre0 : rehash_all e (pass_split src dest).2 [] 0 = .ok s1) :
    (∃ p ∈ s1, f1 ∈ p.2 ∧ f2 ∈ p.2) ∧
    (∀ s2, e.sha256 (e.content f1) ≠ e.sha256 (e.content f2) →
      rehash_all e (pass_split s1 (pass_split src dest).1).2 [] 1 = .ok s2 →
      ∀ p ∈ s2, ¬(f1 ∈ p.2 ∧ f2 ∈ p.2)) := by
  have hpot1 : f1 ∈ filesOf (pass_split src dest).2 :=
    pass_pot_of_mem (dest, []) hp1 hf1 hl1
  have hpot2 : f2 ∈ filesOf (pass_split src dest).2 :=
    pass_pot_of_mem (dest, []) hp2 hf2 hl2
  rcases rehash_all_mem_digest hpot1 hre0 with ⟨d1, hg1, hm1⟩
  rcases rehash_all_mem_digest hpot2 hre0 with ⟨d2, hg2, hm2⟩
  have hgg : get_hash e f1 0 = get_hash e f2 0 := by simp [get_hash, hpart]
  have hd12 : d1 = d2 := by
    rw [hg1, hg2] at hgg
    injection hgg
  rw [← hd12] at hm2
  have hlook_ne : tlookup s1 (Key.digest d1) ≠ [] := by
    intro hnil
    rw [hnil] at hm1
    cases hm1
  refine ⟨⟨(Key.digest d1, tlookup s1 (Key.digest d1)),
    tlookup_entry_mem hlook_ne, hm1, hm2⟩, ?_⟩
  intro s2 hfull hre1 p hpmem ⟨hin1, hin2⟩
  have hinv := rehash_all_key_inv (by intro q hq; cases hq) hre1
  rcases hinv p hpmem f1 hin1 with ⟨e1, hk1, hgh1⟩
  rcases hinv p hpmem f2 hin2 with ⟨e2, hk2, hgh2⟩
  have he12 : e1 = e2 := by
    rw [hk1] at hk2
    injection hk2
  have hv1 : e1 = e.sha256 (e.content f1) := by
    simp [get_hash] at hgh1
    exact hgh1.symm
  have hv2 : e2 = e.sha256 (e.content f2) := by
    simp [get_hash] at hgh2
    exact hgh2.symm
  rw [hv1, hv2] at he12
  exact hfull he12

/-- C10: during a whole run entered at iteration 0, `get_hash` is only ever
invoked with iteration 0 or 1: every recorded invocation carries one of
those two values, while the error branch of `get_hash` fires exactly at the
other iteration values. -/
theorem claim_C10 (e : Env) (src : Table Key) (dest : Table String) :
    (∀ ev ∈ (find_duplicate_files_tr e src dest 0).2, ev.2 = 0 ∨ ev.2 = 1) ∧
    (∀ (file : String) (it : Nat), 2 ≤ it →
      get_hash e file it = .error "Error encountered in get_hash()") := by
  constructor
  · intro ev hev
    rw [find_tr_unfold0] at hev
    by_cases h0 : (pass_split src dest).2 = []
    · rw [if_pos h0] at hev
      simp at hev
    · rw [if_neg h0] at hev
      cases hr0 : rehash_all_tr e (pass_split src dest).2 [] 0 with
      | mk r tr =>
        rw [hr0] at hev
        cases r with
        | error m =>
          simp only at hev
          have hev' : ev ∈ (rehash_all_tr e (pass_split src dest).2 [] 0).2 := by
            rw [hr0]
            exact hev
          exact Or.inl (rehash_all_tr_trace hev').2
        | ok s1 =>
          simp only at hev
          by_cases h1 : (pass_split s1 (pass_split src dest).1).2 = []
          · rw [if_pos h1] at hev
            have hev' : ev ∈ (rehash_all_tr e (pass_split src dest).2 [] 0).2 := by
              rw [hr0]
              exact hev
            exact Or.inl (rehash_all_tr_trace hev').2
          · rw [if_neg h1] at hev
            cases hr1 : rehash_all_tr e (pass_split s1 (pass_split src dest).1).2 [] 1 with
            | mk r' tr' =>
              rw [hr1] at hev
              have hmem : ev ∈ tr ++ tr' := by
                cases r' with
                | error m => simpa using hev
                | ok s2 => simpa using hev
              rcases List.mem_append.mp hmem with hh | hh
              · have hev' : ev ∈ (rehash_all_tr e (pass_split src dest).2 [] 0).2 := by
                  rw [hr0]
                  exact hh
                exact Or.inl (rehash_all_tr_trace hev').2
              · have hev' : ev ∈
                    (rehash_all_tr e (pass_split s1 (pass_split src dest).1).2 [] 1).2 := by
                  rw [hr1]
                  exact hh
                exact Or.inr (rehash_all_tr_trace hev').2
  · intro file it hit
    have h0 : ¬ it = 0 := by omega
    have h1 : ¬ it = 1 := by omega
    simp [get_hash, h0, h1]

/-! ### Concrete environments for the scenario claim and the witnesses -/

/-- A small injective-enough stand-in digest for concrete runs. -/
def digestFn : List Nat → String :=
  fun l => Nat.repr (l.foldl (fun a b => a + b + 1) 0)

/-- Contents of the spec's scenario: `a.txt` and `b.txt` share 10 bytes of
content X, `c.txt` has 10 bytes of content Y, `d.log` 20 bytes of
content Z. -/
def c8content : String → List Nat := fun f =>
  if f = "a.txt" then List.replicate 10 1
  else if f = "b.txt" then List.replicate 10 1
  else if f = "c.txt" then List.replicate 10 2
  else if f = "d.log" then List.replicate 20 3
  else []

def env8 : Env := ⟨c8content, fun _ => true, digestFn⟩

/-- The scenario's level-0 grouping, `a.txt` before `b.txt`. -/
def src8 : Table Key :=
  [(Key.size 10, ["a.txt", "b.txt", "c.txt"]), (Key.size 20, ["d.log"])]

/-- The scenario environment with `b.txt` made unreadable. -/
def env6 : Env :=
  ⟨c8content, fun f => if f = "b.txt" then false else true, digestFn⟩

/-- The level-1 and level-2 tables of the scenario run. -/
def s1tab : Table Key :=
  [(Key.digest "20", ["a.txt", "b.txt"]), (Key.digest "30", ["c.txt"])]

def s2tab : Table Key := [(Key.digest "20", ["a.txt", "b.txt"])]

/-- Contents for the cross-size merging witness: two ambiguous groups of
different sizes whose members share their first 1024 bytes. -/
def c9content : String → List Nat := fun f =>
  if f = "g1a.bin" ∨ f = "g1b.bin" then List.replicate 1024 0 ++ [1]
  else if f = "g2a.bin" ∨ f = "g2b.bin" then List.replicate 1024 0 ++ [2, 2]
  else []

/-- A digest stand-in for the big-file environment, injective on the
contents involved. -/
def sha9 : List Nat → String := fun l => Nat.repr l.length

def env9 : Env := ⟨c9content, fun _ => true, sha9⟩

def src9 : Table Key :=
  [(Key.size 1025, ["g1a.bin", "g1b.bin"]), (Key.size 1026, ["g2a.bin", "g2b.bin"])]

def c9s1 : Table Key :=
  [(Key.digest "1024", ["g1a.bin", "g1b.bin", "g2a.bin", "g2b.bin"])]

def c9s2 : Table Key :=
  [(Key.digest "1025", ["g1a.bin", "g1b.bin"]), (Key.digest "1026", ["g2a.bin", "g2b.bin"])]

/-- C8: the concrete scenario.  On input
`{10 ↦ [a.txt, b.txt, c.txt], 20 ↦ [d.log]}` the run returns
`log-files = [d.log]`, `txt-files = [c.txt, a.txt]`,
`duplicate-files = [b.txt]`; `d.log` is never hashed (resolved at
level 0) and `c.txt` is hashed only for the partial digest (resolved as
unique after the level-1 disambiguation). -/
theorem claim_C8 :
    find_duplicate_files env8 src8 [] 0 =
      .ok [("log-files", ["d.log"]), ("txt-files", ["c.txt", "a.txt"]),
        ("duplicate-files", ["b.txt"])] ∧
    (find_duplicate_files_tr env8 src8 [] 0).2 =
      [("a.txt", 0), ("b.txt", 0), ("c.txt", 0), ("a.txt", 1), ("b.txt", 1)] := by
  constructor
  · rw [find_dup_unfold0]
    rfl
  · rw [find_tr_unfold0]
    rfl

/-! ### Witnesses -/

def c5out : Table String := [("txt-files", ["a.txt"]), ("duplicate-files", ["b.txt"])]

/-- Witness for C1: conservation on the concrete scenario run and on a
concrete rehash pass. -/
theorem claim_C1_witness :
    tcount [("log-files", ["d.log"]), ("txt-files", ["c.txt", "a.txt"]),
        ("duplicate-files", ["b.txt"])] =
      tcount ([] : Table String) + tcount src8 ∧
    tcount [(Key.digest "20", ["a.txt", "b.txt"])] =
      tcount ([] : Table Key) + (["a.txt", "b.txt"] : List String).length :=
  ⟨(claim_C1 env8).1 src8 []
      [("log-files", ["d.log"]), ("txt-files", ["c.txt", "a.txt"]),
        ("duplicate-files", ["b.txt"])]
      (by rw [find_dup_unfold0]; rfl),
   (claim_C1 env8).2 ["a.txt", "b.txt"] [] [(Key.digest "20", ["a.txt", "b.txt"])] 1 rfl⟩

/-- Witness for C3: `d.log` sits alone in its size group of the scenario,
is never hashed, and ends in the `log-files` bucket. -/
theorem claim_C3_witness :
    (∀ p ∈ src8, "d.log" ∈ p.2 → p.2 = ["d.log"]) ∧
    (∀ ev ∈ (find_duplicate_files_tr env8 src8 [] 0).2, ev.1 ≠ "d.log") ∧
    (∀ out, (∃ p ∈ src8, "d.log" ∈ p.2) →
      find_duplicate_files env8 src8 [] 0 = .ok out →
      "d.log" ∈ tlookup out (file_label "d.log")) := by
  have hsing : ∀ p ∈ src8, "d.log" ∈ p.2 → p.2 = ["d.log"] := by decide
  exact ⟨hsing, (claim_C3 env8 src8 [] 0 "d.log" hsing).1,
    (claim_C3 env8 src8 [] 0 "d.log" hsing).2⟩

/-- Witness for C4: in the scenario `a.txt` and `b.txt` have identical
contents, share the size-10 group, and end together in the single level-2
group. -/
theorem claim_C4_witness :
    ("a.txt" : String) ≠ "b.txt" ∧
    env8.content "a.txt" = env8.content "b.txt" ∧
    (∃ p ∈ src8, "a.txt" ∈ p.2 ∧ "b.txt" ∈ p.2) ∧
    rehash_all env8 (pass_split src8 []).2 [] 0 = .ok s1tab ∧
    rehash_all env8 (pass_split s1tab (pass_split src8 []).1).2 [] 1 = .ok s2tab ∧
    (∃ p ∈ s2tab, "a.txt" ∈ p.2 ∧ "b.txt" ∈ p.2) := by
  refine ⟨by decide, rfl, by decide, rfl, rfl, ?_⟩
  exact (claim_C4 env8 src8 [] "a.txt" "b.txt" s1tab s2tab (by decide) rfl
    (by decide) rfl rfl).1

/-- Witness for C5: two runs of the scenario in extensionally equal
environments agree, and the first-inserted member `a.txt` of the terminal
group is the one classified by extension. -/
theorem claim_C5_witness :
    find_duplicate_files env8 src8 [] 0 = find_duplicate_files env8 src8 [] 0 ∧
    classify_final [] s2tab = .ok c5out ∧
    (∃ hd tl, ((Key.digest "20", ["a.txt", "b.txt"]) : Key × List String).2 = hd :: tl ∧
      hd ∈ tlookup c5out (file_label hd)) := by
  have h := claim_C5 env8 env8 src8 [] rfl rfl rfl
  exact ⟨h.1, rfl, h.2 [] s2tab c5out rfl (Key.digest "20", ["a.txt", "b.txt"])
    (by decide)⟩

/-- Witness for C6: with `b.txt` unreadable the scenario run aborts with
the read error. -/
theorem claim_C6_witness :
    (∃ p ∈ src8, "b.txt" ∈ p.2 ∧ p.2.length ≠ 1) ∧
    env6.readable "b.txt" = false ∧
    find_duplicate_files env6 src8 [] 0 = .error "Unable to read current file" := by
  refine ⟨by decide, rfl, ?_⟩
  exact (claim_C6 env6 src8 [] "b.txt" (by decide) rfl).1

/-- Witness for C7 is `claim_C7_witness`, stated above next to the claim.
The remaining support facts for the C9 witness avoid evaluating the
1024-byte contents element by element: they only use length lemmas. -/
theorem c9_take (t : List Nat) :
    (List.replicate 1024 (0 : Nat) ++ t).take byte_chunk = List.replicate 1024 0 := by
  rw [show byte_chunk = 1024 from rfl,
    List.take_append_of_le_length (by rw [List.length_replicate]),
    List.take_of_length_le (by rw [List.length_replicate])]

theorem c9_hash0 (f : String) (t : List Nat)
    (hf : env9.content f = List.replicate 1024 0 ++ t) :
    get_hash env9 f 0 = .ok "1024" := by
  rw [get_hash, if_pos rfl, hf, c9_take]
  show Except.ok (Nat.repr (List.replicate 1024 (0 : Nat)).length) = _
  rw [List.length_replicate]
  rfl

theorem c9_hash1 (f : String) (t : List Nat)
    (hf : env9.content f = List.replicate 1024 0 ++ t) :
    get_hash env9 f 1 = .ok (Nat.repr (1024 + t.length)) := by
  rw [get_hash, if_neg (by decide), if_pos rfl, hf]
  show Except.ok (Nat.repr (List.replicate 1024 (0 : Nat) ++ t).length) = _
  rw [List.length_append, List.length_replicate]

theorem c9_sha_full (f : String) (t : List Nat)
    (hf : env9.content f = List.replicate 1024 0 ++ t) :
    env9.sha256 (env9.content f) = Nat.repr (1024 + t.length) := by
  rw [hf]
  show Nat.repr (List.replicate 1024 (0 : Nat) ++ t).length = _
  rw [List.length_append, List.length_replicate]

theorem c9_rehash0 : rehash_all env9 (pass_split src9 []).2 [] 0 = .ok c9s1 := by
  rw [show (pass_split src9 []).2 =
    [(Key.size 1025, ["g1a.bin", "g1b.bin"]),
     (Key.size 1026, ["g2a.bin", "g2b.bin"])] from rfl]
  simp only [rehash_all, rehash_and_add_to_table,
    c9_hash0 "g1a.bin" [1] rfl, c9_hash0 "g1b.bin" [1] rfl,
    c9_hash0 "g2a.bin" [2, 2] rfl, c9_hash0 "g2b.bin" [2, 2] rfl,
    show env9.readable "g1a.bin" = true from rfl,
    show env9.readable "g1b.bin" = true from rfl,
    show env9.readable "g2a.bin" = true from rfl,
    show env9.readable "g2b.bin" = true from rfl, if_true]
  rfl

theorem c9_rehash1 :
    rehash_all env9 (pass_split c9s1 (pass_split src9 []).1).2 [] 1 = .ok c9s2 := by
  rw [show (pass_split c9s1 (pass_split src9 []).1).2 =
    [(Key.digest "1024", ["g1a.bin", "g1b.bin", "g2a.bin", "g2b.bin"])] from rfl]
  simp only [rehash_all, rehash_and_add_to_table,
    c9_hash1 "g1a.bin" [1] rfl, c9_hash1 "g1b.bin" [1] rfl,
    c9_hash1 "g2a.bin" [2, 2] rfl, c9_hash1 "g2b.bin" [2, 2] rfl,
    show env9.readable "g1a.bin" = true from rfl,
    show env9.readable "g1b.bin" = true from rfl,
    show env9.readable "g2a.bin" = true from rfl,
    show env9.readable "g2b.bin" = true from rfl, if_true]
  rfl

theorem claim_C9_witness :
    ((Key.size 1025, ["g1a.bin", "g1b.bin"]) : Key × List String) ∈ src9 ∧
    ((Key.size 1026, ["g2a.bin", "g2b.bin"]) : Key × List String) ∈ src9 ∧
    (Key.size 1025 : Key) ≠ Key.size 1026 ∧
    (env9.content "g1a.bin").take byte_chunk = (env9.content "g2a.bin").take byte_chunk ∧
    env9.sha256 (env9.content "g1a.bin") ≠ env9.sha256 (env9.content "g2a.bin") ∧
    rehash_all env9 (pass_split src9 []).2 [] 0 = .ok c9s1 ∧
    rehash_all env9 (pass_split c9s1 (pass_split src9 []).1).2 [] 1 = .ok c9s2 ∧
    (∃ p ∈ c9s1, "g1a.bin" ∈ p.2 ∧ "g2a.bin" ∈ p.2) ∧
    (∀ p ∈ c9s2, ¬("g1a.bin" ∈ p.2 ∧ "g2a.bin" ∈ p.2)) := by
  have hpart : (env9.content "g1a.bin").take byte_chunk =
      (env9.content "g2a.bin").take byte_chunk := by
    rw [show env9.content "g1a.bin" = List.replicate 1024 0 ++ [1] from rfl,
      show env9.content "g2a.bin" = List.replicate 1024 0 ++ [2, 2] from rfl,
      c9_take, c9_take]
  have hfull : env9.sha256 (env9.content "g1a.bin") ≠
      env9.sha256 (env9.content "g2a.bin") := by
    rw [c9_sha_full "g1a.bin" [1] rfl, c9_sha_full "g2a.bin" [2, 2] rfl]
    decide
  have h := claim_C9 env9 src9 [] "g1a.bin" "g2a.bin"
    (Key.size 1025, ["g1a.bin", "g1b.bin"]) (Key.size 1026, ["g2a.bin", "g2b.bin"])
    c9s1 (by decide) (by decide) (by decide) (by decide) (by decide)
    (by decide) (by decide) hpart c9_rehash0
  exact ⟨by decide, by decide, by decide, hpart, hfull, c9_rehash0, c9_rehash1, h.1,
    h.2 c9s2 hfull c9_rehash1⟩

/-- Witness for C10: the scenario's first recorded invocation `(a.txt, 0)`
carries iteration 0, and `get_hash` fails at iteration 2. -/
theorem claim_C10_witness :
    (("a.txt", 0) : String × Nat) ∈ (find_duplicate_files_tr env8 src8 [] 0).2 ∧
    ((("a.txt", 0) : String × Nat).2 = 0 ∨ (("a.txt", 0) : String × Nat).2 = 1) ∧
    get_hash env8 "a.txt" 2 = .error "Error encountered in get_hash()" := by
  have hmem : (("a.txt", 0) : String × Nat) ∈ (find_duplicate_files_tr env8 src8 [] 0).2 := by
    rw [find_tr_unfold0]
    decide
  exact ⟨hmem, (claim_C10 env8 src8 []).1 ("a.txt", 0) hmem,
    (claim_C10 env8 src8 []).2 "a.txt" 2 (by decide)⟩

end Al
